import Mathlib

set_option maxRecDepth 100000

/-!
Verification development for `script.py` (HtmlToEpub): a shallow embedding of
the HTML-to-Standard-Ebooks conversion pipeline, together with theorems about
the chapter segmenter, the XHTML emitter, the manifest updater and the
markdown loader.

Modelling conventions:
* Strings manipulated by the Python code are modelled as `List Char`
  (`String` wrappers are provided where the surface API uses strings).
* The parsed HTML tree (BeautifulSoup) is modelled by the inductive `Node`.
  Serialisation (`str(tag)`) escapes `&`, `<`, `>` in text and additionally
  `"` in attribute values, as BeautifulSoup's minimal formatter does.
* `bs4.select` is third-party code; the selector semantics is modelled from
  the spec ("heading levels 1-3; any element whose class or id contains the
  substring 'chapter'"), one predicate per selector string listed in
  `identify_chapters`.  The selector string `'##'` is not valid CSS and is
  modelled as matching no element.
* Where a chapter's already-serialised content string is re-parsed by
  BeautifulSoup (`generate_chapter_files`), the fragment is modelled directly
  as a list of nodes, using that parsing a serialised well-formed fragment
  recovers the fragment.
-/

/-! ## Python-style character and string helpers -/

/-- Python `\s` / `str.strip` whitespace (ASCII part). -/
def isWsPy (c : Char) : Bool :=
  c = ' ' || c = '\t' || c = '\n' || c = '\r' || c = '\x0b' || c = '\x0c'

/-- Python `str.strip()` on a character list. -/
def stripL (l : List Char) : List Char :=
  ((l.dropWhile isWsPy).reverse.dropWhile isWsPy).reverse

/-- Python `str.strip()`. -/
def stripS (s : String) : String := String.mk (stripL s.data)

/-- Python `str.lower()` (ASCII model). -/
def lowerL (l : List Char) : List Char := l.map Char.toLower

/-- Python `str.lower()`. -/
def lowerS (s : String) : String := String.mk (lowerL s.data)

/-- Worker for `replaceL`; the fuel argument (at least the length of the
list) makes the recursion structural, so that it evaluates in the kernel. -/
def replaceGo (pat rep : List Char) : Nat → List Char → List Char
  | _, [] => []
  | 0, l => l
  | fuel + 1, c :: rest =>
    if pat ≠ [] ∧ pat.isPrefixOf (c :: rest) then
      rep ++ replaceGo pat rep fuel ((c :: rest).drop pat.length)
    else
      c :: replaceGo pat rep fuel rest

/-- Python `str.replace(pat, rep)`: non-overlapping left-to-right replacement. -/
def replaceL (pat rep l : List Char) : List Char :=
  replaceGo pat rep l.length l

/-- Python `hay.find(sub)`: index of first occurrence, `-1` if absent. -/
def pyFindL (hay sub : List Char) : Int :=
  if sub.isPrefixOf hay then 0
  else
    match hay with
    | [] => -1
    | _ :: rest =>
      let r := pyFindL rest sub
      if r = -1 then -1 else r + 1

/-! ## The markup tree -/

/-- A parsed markup node: an element (tag name, attributes in source order,
children) or a bare text node.  Models the BeautifulSoup tree. -/
inductive Node where
  | elem (name : String) (attrs : List (String × String)) (children : List Node)
  | text (s : String)
deriving Repr

mutual
/-- Structural equality of nodes (BeautifulSoup's `Tag.__eq__` compares
name, attributes and contents structurally, not by identity). -/
def nodeBEq : Node → Node → Bool
  | .elem n₁ a₁ c₁, .elem n₂ a₂ c₂ => n₁ = n₂ && a₁ = a₂ && nodeListBEq c₁ c₂
  | .text s₁, .text s₂ => s₁ = s₂
  | _, _ => false

def nodeListBEq : List Node → List Node → Bool
  | [], [] => true
  | x :: xs, y :: ys => nodeBEq x y && nodeListBEq xs ys
  | _, _ => false
end

mutual
theorem nodeBEq_iff : ∀ a b : Node, nodeBEq a b = true ↔ a = b
  | .elem n₁ a₁ c₁, .elem n₂ a₂ c₂ => by
    simp only [nodeBEq, Bool.and_eq_true, decide_eq_true_eq, Node.elem.injEq]
    rw [nodeListBEq_iff c₁ c₂]
    tauto
  | .elem _ _ _, .text _ => by simp [nodeBEq]
  | .text _, .elem _ _ _ => by simp [nodeBEq]
  | .text s₁, .text s₂ => by simp [nodeBEq]

theorem nodeListBEq_iff : ∀ a b : List Node, nodeListBEq a b = true ↔ a = b
  | [], [] => by simp [nodeListBEq]
  | [], _ :: _ => by simp [nodeListBEq]
  | _ :: _, [] => by simp [nodeListBEq]
  | x :: xs, y :: ys => by
    simp only [nodeListBEq, Bool.and_eq_true, List.cons.injEq]
    rw [nodeBEq_iff x y, nodeListBEq_iff xs ys]
end

instance : DecidableEq Node := fun a b => decidable_of_iff _ (nodeBEq_iff a b)

/-- BeautifulSoup text escaping (minimal formatter): `&`, `<`, `>`. -/
def escTextC (c : Char) : List Char :=
  if c = '&' then "&amp;".data
  else if c = '<' then "&lt;".data
  else if c = '>' then "&gt;".data
  else [c]

def escTextL : List Char → List Char
  | [] => []
  | c :: rest => escTextC c ++ escTextL rest

/-- BeautifulSoup attribute-value escaping: `&`, `<`, `>`, `"`. -/
def escAttrC (c : Char) : List Char :=
  if c = '&' then "&amp;".data
  else if c = '<' then "&lt;".data
  else if c = '>' then "&gt;".data
  else if c = '"' then "&quot;".data
  else [c]

def escAttrL : List Char → List Char
  | [] => []
  | c :: rest => escAttrC c ++ escAttrL rest

/-- Serialisation of one attribute: `" name=\"value\""`. -/
def serializeAttr (a : String × String) : List Char :=
  ' ' :: a.1.data ++ '=' :: '"' :: escAttrL a.2.data ++ ['"']

mutual
/-- `str(tag)`: serialise a node back to markup text. -/
def serializeL : Node → List Char
  | .elem name attrs children =>
    '<' :: name.data ++ (attrs.map serializeAttr).flatten ++ ['>']
      ++ serializeListL children ++ '<' :: '/' :: name.data ++ ['>']
  | .text s => escTextL s.data

/-- `''.join(str(c) for c in nodes)`. -/
def serializeListL : List Node → List Char
  | [] => []
  | n :: rest => serializeL n ++ serializeListL rest
end

/-- `str(tag)` as a `String`. -/
def serializeStr (n : Node) : String := String.mk (serializeL n)

mutual
/-- `tag.get_text()`: concatenation of all descendant text. -/
def getTextL : Node → List Char
  | .elem _ _ children => getTextListL children
  | .text s => s.data

def getTextListL : List Node → List Char
  | [] => []
  | n :: rest => getTextL n ++ getTextListL rest
end

mutual
/-- The nodes of the tree in document (depth-first, pre-) order. -/
def dfsNodes : Node → List Node
  | .elem name attrs children =>
    .elem name attrs children :: dfsNodesList children
  | .text s => [.text s]

def dfsNodesList : List Node → List Node
  | [] => []
  | n :: rest => dfsNodes n ++ dfsNodesList rest
end

/-- Whether a node is an element (`next_element.name` is truthy in Python). -/
def isElem : Node → Bool
  | .elem _ _ _ => true
  | .text _ => false

/-- Value of an attribute, if present (first occurrence). -/
def attrVal (n : Node) (key : String) : Option String :=
  match n with
  | .elem _ attrs _ => (attrs.find? (fun a => a.1 = key)).map (·.2)
  | .text _ => none

/-! ## Selector model (for `identify_chapters`'s `chapter_patterns`) -/

/-- Atoms of the CSS selectors used in `chapter_patterns`.  Semantics is
modelled from the spec: headings h1-h3, and elements whose class or id
contains the substring "chapter"; the invalid selector `'##'` matches
nothing. -/
inductive Selector where
  | tagIs (name : String)
  | attrContains (tag : String) (attr : String) (sub : String)
  | classWord (w : String)
  | idIs (v : String)
  | invalidSel (raw : String)
deriving DecidableEq, Repr

/-- Substring test (`sub in s` in Python / CSS `*=`). -/
def containsSubL (hay sub : List Char) : Bool :=
  decide (sub <:+: hay)

/-- Split a character list on runs of whitespace (for CSS class matching). -/
def wsWords : List Char → List (List Char)
  | [] => []
  | c :: rest =>
    if isWsPy c then wsWords rest
    else
      (c :: rest.takeWhile (fun d => !(isWsPy d)))
        :: wsWords (rest.dropWhile (fun d => !(isWsPy d)))
termination_by l => l.length
decreasing_by
  · simp
  · have h1 : (rest.dropWhile (fun d => !(isWsPy d))).length ≤ rest.length :=
      (List.dropWhile_sublist _).length_le
    simp only [List.length_cons]
    omega

/-- Whether a node matches a selector. -/
def selMatches (sel : Selector) (n : Node) : Bool :=
  match sel with
  | .tagIs name =>
    match n with
    | .elem nm _ _ => nm = name
    | .text _ => false
  | .attrContains tag attr sub =>
    match n with
    | .elem nm _ _ =>
      nm = tag &&
        (match attrVal n attr with
         | some v => containsSubL v.data sub.data
         | none => false)
    | .text _ => false
  | .classWord w =>
    match attrVal n "class" with
    | some v => (wsWords v.data).contains w.data
    | none => false
  | .idIs v => attrVal n "id" = some v
  | .invalidSel _ => false

/-- The `chapter_patterns` list from `identify_chapters`, in source order. -/
def chapterPatterns : List Selector :=
  [ .tagIs "h1", .tagIs "h2", .tagIs "h3",
    .attrContains "div" "class" "chapter", .attrContains "div" "id" "chapter",
    .attrContains "span" "class" "chapter", .attrContains "span" "id" "chapter",
    .classWord "chapter", .idIs "chapter",
    .invalidSel "##" ]

/-- `soup.select(pattern)`: matching nodes in document order. -/
def selectL (sel : Selector) (root : Node) : List Node :=
  (dfsNodes root).filter (selMatches sel)

/-- The concatenated candidate list built by the `for pattern in
chapter_patterns: potential_chapters.extend(...)` loop. -/
def candidatesOf (root : Node) : List Node :=
  chapterPatterns.flatMap (fun sel => selectL sel root)

/-! ## The broken position sort -/

/-- The sort key `lambda x: str(x).find(str(x))` from `identify_chapters`. -/
def selfFindKey (n : Node) : Int :=
  pyFindL (serializeL n) (serializeL n)

/-- Stable insert used to model Python's stable `list.sort`. -/
def insSorted (key : Node → Int) (x : Node) : List Node → List Node
  | [] => [x]
  | y :: ys => if key y ≤ key x then y :: insSorted key x ys else x :: y :: ys

/-- Stable sort by key (model of `list.sort(key=...)`). -/
def pySortByKey (key : Node → Int) (l : List Node) : List Node :=
  l.foldl (fun acc x => insSorted key x acc) []

/-- The candidate list as actually processed by `identify_chapters`, after
`potential_chapters.sort(key=lambda x: str(x).find(str(x)))`. -/
def sortedCandidates (root : Node) : List Node :=
  pySortByKey selfFindKey (candidatesOf root)

/-- Candidates in order of first occurrence in a depth-first traversal:
the ordering the spec asks for.  Stated from the claim's words, for
comparison with `sortedCandidates`. -/
def documentOrderCandidates (root : Node) : List Node :=
  (dfsNodes root).filter (fun n => chapterPatterns.any (fun sel => selMatches sel n))

/-! ## Chapter segmentation (`identify_chapters`) -/

/-- A chapter as built by the segmenter: `{'title': ..., 'content': ...}`. -/
structure Chapter where
  title : String
  content : String
deriving DecidableEq, Repr

mutual
/-- Find the first (document-order) occurrence of `target` among the
descendants of a node and return the list of its following siblings. -/
def sibAfterIn (t : Node) : Node → Option (List Node)
  | .elem _ _ children => sibAfterInList t children
  | .text _ => none

def sibAfterInList (t : Node) : List Node → Option (List Node)
  | [] => none
  | c :: rest =>
    if c = t then some rest
    else
      match sibAfterIn t c with
      | some r => some r
      | none => sibAfterInList t rest
end

/-- The sibling walk of `identify_chapters`: all following siblings of
`marker` (stopping at `next?` when it is the next candidate), restricted to
element nodes. -/
def collectContent (root marker : Node) (next? : Option Node) : List Node :=
  let sibs := (sibAfterIn marker root).getD []
  let stopped :=
    match next? with
    | none => sibs
    | some nx => sibs.takeWhile (fun s => decide (s ≠ nx))
  stopped.filter isElem

/-- The candidate-walking loop of `identify_chapters`: flush the pending
chapter when its content is non-empty, retitle from the marker, collect
sibling content, and flush once more after the loop. -/
def segWalk (root : Node) : List Node → String → List Node → List Chapter → List Chapter
  | [], curTitle, curContent, acc =>
    if curContent.isEmpty then acc
    else acc ++ [⟨curTitle, String.mk (serializeListL curContent)⟩]
  | m :: rest, curTitle, curContent, acc =>
    let acc' :=
      if curContent.isEmpty then acc
      else acc ++ [⟨curTitle, String.mk (serializeListL curContent)⟩]
    segWalk root rest (stripS (String.mk (getTextL m)))
      (collectContent root m rest.head?) acc'

/-- `identify_chapters` on the HTML path: candidate collection, the
(broken) position sort, the title-page preface check, the walking loop, and
the single-chapter fallback when no candidate matches. -/
def identifyChapters (bookTitle : String) (body : Node) : List Chapter :=
  let cands := candidatesOf body
  if cands.isEmpty then
    [⟨"Chapter 1", serializeStr body⟩]
  else
    match pySortByKey selfFindKey cands with
    | [] => []
    | c :: rest =>
      let t := stripS (String.mk (getTextL c))
      if [("title page" : String), "title", lowerS bookTitle].contains (lowerS t) then
        segWalk body rest t [] []
      else
        segWalk body (c :: rest) "Introduction" [] []

/-! ## Claims about the segmenter -/

/-- C1: the claim says candidates are processed in document order (first
occurrence in a depth-first traversal) regardless of which selector matched.
In the code the sort key `str(x).find(str(x))` is `0` for every node, so the
stable sort leaves the selector-grouped concatenation order unchanged: for
`<body><h2>A</h2><h1>B</h1></body>` the processed order is `[h1 B, h2 A]`,
not the document order `[h2 A, h1 B]`. -/
theorem c1_candidate_order_not_document_order :
    sortedCandidates (.elem "body" [] [.elem "h2" [] [.text "A"], .elem "h1" [] [.text "B"]])
      = [.elem "h1" [] [.text "B"], .elem "h2" [] [.text "A"]]
    ∧ documentOrderCandidates (.elem "body" [] [.elem "h2" [] [.text "A"], .elem "h1" [] [.text "B"]])
      = [.elem "h2" [] [.text "A"], .elem "h1" [] [.text "B"]]
    ∧ sortedCandidates (.elem "body" [] [.elem "h2" [] [.text "A"], .elem "h1" [] [.text "B"]])
      ≠ documentOrderCandidates (.elem "body" [] [.elem "h2" [] [.text "A"], .elem "h1" [] [.text "B"]]) := by
  refine ⟨by decide, by decide, by decide⟩

/-- C5: the claim says element content preceding the first remaining
candidate is emitted as a synthetic leading chapter titled "Introduction".
In the code `current_content` is empty when the first candidate is reached,
so no leading chapter is ever flushed and the preceding `<p>Preface</p>` is
dropped: the whole output is the single chapter for the `<h1>`. -/
theorem c5_preceding_content_dropped :
    identifyChapters "book"
        (.elem "body" [] [.elem "p" [] [.text "Preface"],
                          .elem "h1" [] [.text "One"],
                          .elem "p" [] [.text "Body"]])
      = [⟨"One", "<p>Body</p>"⟩] := by
  decide

/-- C6: when no node of the document matches any heuristic selector, the
segmenter produces exactly one chapter titled "Chapter 1" whose content is
the serialised document body, as a defined fallback rather than a failure. -/
theorem c6_zero_candidates_single_chapter (bookTitle : String) (body : Node)
    (h : ∀ n ∈ dfsNodes body, ∀ sel ∈ chapterPatterns, selMatches sel n = false) :
    identifyChapters bookTitle body = [⟨"Chapter 1", serializeStr body⟩] := by
  have hc : candidatesOf body = [] := by
    unfold candidatesOf
    rw [List.flatMap_eq_nil_iff]
    intro sel hsel
    unfold selectL
    rw [List.filter_eq_nil_iff]
    intro n hn
    simp [h n hn sel hsel]
  unfold identifyChapters
  rw [hc]
  simp

/-- Closed instance of `c6_zero_candidates_single_chapter` on a document
with a single plain paragraph. -/
theorem c6_zero_candidates_witness :
    identifyChapters "book" (.elem "body" [] [.elem "p" [] [.text "x"]])
      = [⟨"Chapter 1", "<body><p>x</p></body>"⟩] := by
  have := c6_zero_candidates_single_chapter "book"
    (.elem "body" [] [.elem "p" [] [.text "x"]]) (by decide)
  rw [this]
  rfl

/-! ## The XHTML emitter (`generate_chapter_files`) -/

/-- Decimal digit character. -/
def digitChar (d : Nat) : Char := Char.ofNat (48 + d)

/-- Worker for `natDec`; fuel-based so that it evaluates in the kernel. -/
def natDecGo : Nat → Nat → List Char → List Char
  | 0, _, acc => acc
  | fuel + 1, n, acc =>
    if n = 0 then acc else natDecGo fuel (n / 10) (digitChar (n % 10) :: acc)

/-- Decimal rendering of a natural number (Python `f"...{i}..."`). -/
def natDec (n : Nat) : List Char :=
  if n = 0 then ['0'] else natDecGo n n []

/-- Characters of the roman-numeral class `[IVXLCDM]` in the title regex. -/
def isRomanUpper (c : Char) : Bool :=
  c = 'I' || c = 'V' || c = 'X' || c = 'L' || c = 'C' || c = 'D' || c = 'M'

/-- The regex `^chapter\s+([IVXLCDM]+)$` from `generate_chapter_files`,
returning the captured group.  Note the character class is upper-case only,
exactly as in the source. -/
def romanMatchL (l : List Char) : Option (List Char) :=
  if "chapter".data.isPrefixOf l then
    let r1 := l.drop 7
    let ws := r1.takeWhile isWsPy
    let r2 := r1.dropWhile isWsPy
    let rom := r2.takeWhile isRomanUpper
    let r3 := r2.dropWhile isRomanUpper
    if ws ≠ [] ∧ rom ≠ [] ∧ r3 = [] then some rom else none
  else none

/-- Title resolution for chapter `i` (1-based): strip, replace an empty
title by `"Chapter {i}"`, then apply the roman-numeral canonicalisation,
whose regex is matched against `title.lower()`. -/
def resolveTitle (i : Nat) (raw : String) : String :=
  let t := stripS raw
  let t := if t = "" then "Chapter " ++ String.mk (natDec i) else t
  match romanMatchL (lowerL t.data) with
  | some rom => "Chapter " ++ String.mk rom
  | none => t

/-- The literal three-character replacement string of `--` in the source
(bytes `C3 A2, E2 82 AC, E2 80 9D`: a twice-encoded em dash). -/
def mojibakeDash : List Char := ['â', '€', '”']

/-- The typographic substitution block: `content.replace('"', '"')` twice,
`content.replace("'", "'")` twice, then `content.replace("--", "â€”")`,
with all argument strings exactly as in the source bytes. -/
def typographicL (l : List Char) : List Char :=
  let l1 := replaceL ['"'] ['"'] l
  let l2 := replaceL ['"'] ['"'] l1
  let l3 := replaceL ['\''] ['\''] l2
  let l4 := replaceL ['\''] ['\''] l3
  replaceL ['-', '-'] mojibakeDash l4

def typographicStr (s : String) : String := String.mk (typographicL s.data)

/-- The heading tags searched by the redundant-heading removal. -/
def headingNames : List String := ["h1", "h2", "h3", "h4"]

def isHeadingName (nm : String) : Bool := headingNames.contains nm

/-- Whether `header.get_text().strip() == title` for an h1-h4 element. -/
def isMatchingHeading (t : String) (n : Node) : Bool :=
  match n with
  | .elem nm _ _ => isHeadingName nm && (stripS (String.mk (getTextL n)) = t)
  | .text _ => false

mutual
/-- Redundant-heading removal applied inside a kept node. -/
def stripHeads (t : String) : Node → Node
  | .elem nm a cs => .elem nm a (stripHeadsList t cs)
  | .text s => .text s

/-- The `for header in content_soup.find_all(['h1','h2','h3','h4'])`
decompose loop: every heading whose trimmed text equals the title is
removed, at every depth (matching is judged on the text at inspection
time, i.e. before the node's own descendants are stripped). -/
def stripHeadsList (t : String) : List Node → List Node
  | [] => []
  | n :: rest =>
    if isMatchingHeading t n then stripHeadsList t rest
    else stripHeads t n :: stripHeadsList t rest
end

mutual
/-- Number of headings matching the title in a subtree. -/
def countMatchHeads (t : String) : Node → Nat
  | .elem nm a cs =>
    (if isMatchingHeading t (.elem nm a cs) then 1 else 0) + countMatchHeadsList t cs
  | .text _ => 0

def countMatchHeadsList (t : String) : List Node → Nat
  | [] => 0
  | n :: rest => countMatchHeads t n + countMatchHeadsList t rest
end

mutual
/-- No heading element anywhere in the subtree. -/
def headFreeN : Node → Bool
  | .elem nm _ cs => !(isHeadingName nm) && headFreeL cs
  | .text _ => true

def headFreeL : List Node → Bool
  | [] => true
  | n :: rest => headFreeN n && headFreeL rest
end

mutual
/-- Headings do not nest: no heading element has a heading descendant. -/
def noNestHeadN : Node → Bool
  | .elem nm _ cs => if isHeadingName nm then headFreeL cs else noNestHeadL cs
  | .text _ => true

def noNestHeadL : List Node → Bool
  | [] => true
  | n :: rest => noNestHeadN n && noNestHeadL rest
end

/-! ## Claims about title resolution and typographic substitution -/

/-- C2: the claim says a title "chapter" + roman numeral (any case) is
canonicalised to upper case, e.g. "Chapter iv" to "Chapter IV".  The regex
`^chapter\s+([IVXLCDM]+)$` is matched against `title.lower()`, whose
letters are all lower case, so the upper-case-only class never matches and
the title is left as "Chapter iv".  The empty-title half of the claim does
hold: a blank title at position 3 becomes "Chapter 3". -/
theorem c2_roman_canonicalization_never_fires :
    resolveTitle 1 "Chapter iv" = "Chapter iv"
    ∧ resolveTitle 1 "Chapter iv" ≠ "Chapter IV"
    ∧ resolveTitle 3 "   " = "Chapter 3" := by
  refine ⟨by decide, by decide, by decide⟩

/-- C3: the claim says straight quotes become curly quotes and `--` becomes
an em dash (U+2014).  In the source both `replace` arguments for each quote
are the same straight quote (so the quotes are unchanged), and `--` is
replaced by the three characters `â`, `€`, `”` (a twice-encoded em dash),
so no em dash is produced. -/
theorem c3_typographic_mojibake :
    typographicStr "\"quoted\" and word--word" = "\"quoted\" and wordâ€”word"
    ∧ ('"' ∈ (typographicStr "\"quoted\" and word--word").data)
    ∧ ('—' ∉ (typographicStr "\"quoted\" and word--word").data)
    ∧ ('“' ∉ (typographicStr "\"quoted\" and word--word").data) := by
  refine ⟨by decide, by decide, by decide, by decide⟩

/-! ## Heading-removal lemmas -/

mutual
theorem headFreeN_strip (t : String) : ∀ n : Node, headFreeN n = true → stripHeads t n = n
  | .elem nm a cs, h => by
    have h' : headFreeL cs = true := by
      simp only [headFreeN, Bool.and_eq_true] at h
      exact h.2
    simp only [stripHeads, headFreeL_strip t cs h']
  | .text s, _ => rfl

theorem headFreeL_strip (t : String) : ∀ ns : List Node, headFreeL ns = true → stripHeadsList t ns = ns
  | [], _ => rfl
  | n :: rest, h => by
    simp only [headFreeL, Bool.and_eq_true] at h
    have hm : isMatchingHeading t n = false := by
      cases n with
      | elem nm a cs =>
        simp only [headFreeN, Bool.and_eq_true, Bool.not_eq_true'] at h
        simp [isMatchingHeading, h.1.1]
      | text s => rfl
    rw [stripHeadsList, hm]
    simp only [Bool.false_eq_true, if_false]
    rw [headFreeN_strip t n h.1, headFreeL_strip t rest h.2]
end

mutual
theorem headFreeN_count (t : String) : ∀ n : Node, headFreeN n = true → countMatchHeads t n = 0
  | .elem nm a cs, h => by
    simp only [headFreeN, Bool.and_eq_true, Bool.not_eq_true'] at h
    have hm : isMatchingHeading t (.elem nm a cs) = false := by
      simp [isMatchingHeading, h.1]
    have hc := headFreeL_count t cs h.2
    simp [countMatchHeads, hm, hc]
  | .text _, _ => rfl

theorem headFreeL_count (t : String) : ∀ ns : List Node, headFreeL ns = true → countMatchHeadsList t ns = 0
  | [], _ => rfl
  | n :: rest, h => by
    simp only [headFreeL, Bool.and_eq_true] at h
    simp only [countMatchHeadsList, headFreeN_count t n h.1, headFreeL_count t rest h.2]
end

mutual
theorem noNest_count_node (t : String) :
    ∀ n : Node, noNestHeadN n = true → isMatchingHeading t n = false →
      countMatchHeads t (stripHeads t n) = 0
  | .elem nm a cs, h, hm => by
    by_cases hh : isHeadingName nm = true
    · have hfree : headFreeL cs = true := by
        simpa [noNestHeadN, hh] using h
      have hcs : stripHeadsList t cs = cs := headFreeL_strip t cs hfree
      have hcnt : countMatchHeadsList t cs = 0 := headFreeL_count t cs hfree
      simp [stripHeads, hcs, countMatchHeads, hm, hcnt]
    · have hns : noNestHeadL cs = true := by
        simpa [noNestHeadN, hh] using h
      have hcnt := noNest_count_list t cs hns
      have hm' : isMatchingHeading t (.elem nm a (stripHeadsList t cs)) = false := by
        simp only [Bool.not_eq_true] at hh
        simp [isMatchingHeading, hh]
      simp [stripHeads, countMatchHeads, hm', hcnt]
  | .text _, _, _ => rfl

theorem noNest_count_list (t : String) :
    ∀ ns : List Node, noNestHeadL ns = true →
      countMatchHeadsList t (stripHeadsList t ns) = 0
  | [], _ => rfl
  | n :: rest, h => by
    simp only [noNestHeadL, Bool.and_eq_true] at h
    by_cases hm : isMatchingHeading t n = true
    · simp only [stripHeadsList, hm, if_true]
      exact noNest_count_list t rest h.2
    · simp only [Bool.not_eq_true] at hm
      have h1 := noNest_count_node t n h.1 hm
      have h2 := noNest_count_list t rest h.2
      simp [stripHeadsList, hm, countMatchHeadsList, h1, h2]
end

mutual
theorem count_zero_strip_node (t : String) :
    ∀ n : Node, countMatchHeads t n = 0 → stripHeads t n = n
  | .elem nm a cs, h => by
    have hcs : countMatchHeadsList t cs = 0 := by
      rw [countMatchHeads] at h
      omega
    simp [stripHeads, count_zero_strip_list t cs hcs]
  | .text _, _ => rfl

theorem count_zero_strip_list (t : String) :
    ∀ ns : List Node, countMatchHeadsList t ns = 0 → stripHeadsList t ns = ns
  | [], _ => rfl
  | n :: rest, h => by
    rw [countMatchHeadsList] at h
    have hn : countMatchHeads t n = 0 := by omega
    have hr : countMatchHeadsList t rest = 0 := by omega
    have hm : isMatchingHeading t n = false := by
      cases n with
      | elem nm a cs =>
        by_cases hm' : isMatchingHeading t (.elem nm a cs) = true
        · rw [countMatchHeads, hm'] at hn
          simp at hn
        · simpa using hm'
      | text s => rfl
    simp [stripHeadsList, hm, count_zero_strip_node t n hn, count_zero_strip_list t rest hr]
end

/-! ## Claims about heading removal -/

/-- C7 counterexample: the claim says only the first matching heading is
removed and later identical headings are kept.  The decompose loop visits
every heading, so for a fragment with two headings `<h2>T</h2>` around a
paragraph, both are removed. -/
theorem c7_counterexample :
    stripHeadsList "T" [.elem "h2" [] [.text "T"], .elem "p" [] [.text "x"], .elem "h2" [] [.text "T"]]
      = [.elem "p" [] [.text "x"]]
    ∧ stripHeadsList "T" [.elem "h2" [] [.text "T"], .elem "p" [] [.text "x"], .elem "h2" [] [.text "T"]]
      ≠ [.elem "p" [] [.text "x"], .elem "h2" [] [.text "T"]] := by
  refine ⟨by decide, by decide⟩

/-- C7 (amended): the emitter removes every heading (h1-h4) whose trimmed
text equals the resolved title, not only the first; and when no heading
matches, the fragment is unchanged.  (Headings are assumed not to nest
inside other headings; matching is judged on the text the heading has when
it is inspected.) -/
theorem c7_all_matching_headings_removed (t : String) (ns : List Node)
    (h : noNestHeadL ns = true) :
    countMatchHeadsList t (stripHeadsList t ns) = 0
    ∧ (countMatchHeadsList t ns = 0 → stripHeadsList t ns = ns) := by
  exact ⟨noNest_count_list t ns h, count_zero_strip_list t ns⟩

/-- Closed instance of `c7_all_matching_headings_removed` on a concrete
fragment with two matching headings. -/
theorem c7_all_matching_headings_removed_witness :
    countMatchHeadsList "T"
        (stripHeadsList "T" [.elem "h2" [] [.text "T"], .elem "p" [] [.text "x"], .elem "h2" [] [.text "T"]]) = 0
    ∧ stripHeadsList "T" [.elem "p" [] [.text "x"]] = [.elem "p" [] [.text "x"]] := by
  refine ⟨(c7_all_matching_headings_removed "T"
    [.elem "h2" [] [.text "T"], .elem "p" [] [.text "x"], .elem "h2" [] [.text "T"]] (by decide)).1,
    (c7_all_matching_headings_removed "T" [.elem "p" [] [.text "x"]] (by decide)).2 (by decide)⟩

/-! ## XML well-formedness

Modelled from the spec: "strict XML syntactic validity (balanced tags,
properly escaped entities, valid character ranges)".  The real check is
`lxml.etree.fromstring`, which is third-party code; this model is a
character-level state machine over the serialised document that checks tag
balance, that `&` only occurs as one of the five predefined entity
references, and that characters outside the XML character ranges are
absent.  It is lenient about attribute syntax (anything without `<` or a
bare `&` up to the closing `>`), which only makes acceptance easier, and
it rejects numeric character references and non-predefined entities, as a
non-DTD XML parse does for the latter. -/

/-- Characters allowed by XML 1.0 (tab, newline, carriage return, and
everything from space upward). -/
def validXmlChar (c : Char) : Bool :=
  c = '\t' || c = '\n' || c = '\r' || (0x20 ≤ c.toNat)

/-- Name characters accepted by the checker for element names. -/
def xmlNameChar (c : Char) : Bool := c.isAlphanum

def xmlSpaceChar (c : Char) : Bool :=
  c = ' ' || c = '\t' || c = '\n' || c = '\r'

/-- The five predefined XML entities. -/
def isEntityName (acc : List Char) : Bool :=
  acc = "amp".data || acc = "lt".data || acc = "gt".data
    || acc = "quot".data || acc = "apos".data

/-- States of the well-formedness scanner.  The stack holds the names of
the currently open elements. -/
inductive XSt where
  | txt (stk : List (List Char))
  | opn (stk : List (List Char))
  | nam (stk : List (List Char)) (n : List Char)
  | att (stk : List (List Char)) (n : List Char)
  | slf (stk : List (List Char)) (n : List Char)
  | cls (stk : List (List Char)) (n : List Char)
  | ent (stk : List (List Char)) (acc : List Char)
  | pi0 (stk : List (List Char))
  | pi1 (stk : List (List Char))
  | bad
deriving DecidableEq, Repr

/-- One step of the scanner. -/
def xstep : XSt → Char → XSt
  | .txt s, c =>
    if c = '<' then .opn s
    else if c = '&' then .ent s []
    else if validXmlChar c then .txt s
    else .bad
  | .opn s, c =>
    if c = '/' then .cls s []
    else if c = '?' then .pi0 s
    else if xmlNameChar c then .nam s [c]
    else .bad
  | .nam s n, c =>
    if xmlNameChar c then .nam s (n ++ [c])
    else if c = '>' then .txt (n :: s)
    else if c = '/' then .slf s n
    else if xmlSpaceChar c then .att s n
    else .bad
  | .att s n, c =>
    if c = '>' then .txt (n :: s)
    else if c = '/' then .slf s n
    else if c = '<' || c = '&' then .bad
    else if validXmlChar c then .att s n
    else .bad
  | .slf s n, c =>
    if c = '>' then .txt s
    else if c = '<' || c = '&' then .bad
    else if validXmlChar c then .att s n
    else .bad
  | .cls s n, c =>
    if xmlNameChar c then .cls s (n ++ [c])
    else if c = '>' then
      match s with
      | top :: rest => if top = n then .txt rest else .bad
      | [] => .bad
    else .bad
  | .ent s acc, c =>
    if c = ';' then (if isEntityName acc then .txt s else .bad)
    else if c.isAlpha then .ent s (acc ++ [c])
    else .bad
  | .pi0 s, c =>
    if c = '?' then .pi1 s
    else if c = '<' then .bad
    else if validXmlChar c then .pi0 s
    else .bad
  | .pi1 s, c =>
    if c = '>' then .txt s
    else if c = '?' then .pi1 s
    else if c = '<' then .bad
    else if validXmlChar c then .pi0 s
    else .bad
  | .bad, _ => .bad

/-- Run the scanner from a state over a character list. -/
def runX (st : XSt) (l : List Char) : XSt := l.foldl xstep st

/-- The document parses as strict XML. -/
def wellFormedL (l : List Char) : Bool := runX (.txt []) l = .txt []

def wellFormedStr (s : String) : Bool := wellFormedL s.data

/-! ## XML repair (`_fix_xml_issues`) -/

/-- Regex sub `&amp;([a-zA-Z]+);` -> `&\1;` (fuel-based scanner). -/
def unescAmpGo : Nat → List Char → List Char
  | _, [] => []
  | 0, l => l
  | fuel + 1, c :: rest =>
    if "&amp;".data.isPrefixOf (c :: rest) then
      let tail5 := (c :: rest).drop 5
      let letters := tail5.takeWhile Char.isAlpha
      let rest' := tail5.dropWhile Char.isAlpha
      if letters ≠ [] ∧ rest'.head? = some ';' then
        '&' :: (letters ++ ';' :: unescAmpGo fuel (rest'.drop 1))
      else c :: unescAmpGo fuel rest
    else c :: unescAmpGo fuel rest

/-- Characters removed by the control-character regex
`[\x00-\x08\x0B\x0C\x0E-\x1F\x7F]`. -/
def isCtrlStripped (c : Char) : Bool :=
  c.toNat ≤ 0x08 || c.toNat = 0x0B || c.toNat = 0x0C
    || (0x0E ≤ c.toNat && c.toNat ≤ 0x1F) || c.toNat = 0x7F

/-- `_fix_xml_issues`: reparse-and-reserialise (the identity on content
that is already the serialisation of a fragment), escape every `&`, undo
the double-escape for recognised entity references, and strip control
characters. -/
def fixXmlIssuesL (content : List Char) : List Char :=
  let esc := replaceL ['&'] "&amp;".data content
  let unesc := unescAmpGo esc.length esc
  unesc.filter (fun c => !(isCtrlStripped c))

/-! ## Template assembly and chapter emission -/

def chapterIdL (i : Nat) : List Char := "chapter-".data ++ natDec i

def chapterIdStr (i : Nat) : String := String.mk (chapterIdL i)

def tplA : List Char :=
  ("<?xml version=\"1.0\" encoding=\"utf-8\"?>\n<html xmlns=\"http://www.w3.org/1999/xhtml\" xmlns:epub=\"http://www.idpf.org/2007/ops\" epub:prefix=\"z3998: http://www.daisy.org/z3998/2012/vocab/structure/, se: https://standardebooks.org/vocab/1.0\" xml:lang=\"").data

def tplB : List Char := ("\">\n<head>\n    <title>").data

def tplC : List Char :=
  ("</title>\n    <link href=\"../css/core.css\" rel=\"stylesheet\" type=\"text/css\"/>\n    <link href=\"../css/local.css\" rel=\"stylesheet\" type=\"text/css\"/>\n</head>\n<body epub:type=\"bodymatter z3998:fiction\">\n    <section id=\"").data

def tplD : List Char := ("\" epub:type=\"chapter\">\n        <h2 epub:type=\"title\">").data

def tplE : List Char := ("</h2>\n        ").data

def tplF : List Char := ("\n    </section>\n</body>\n</html>").data

/-- `xhtml_template.format(language=..., title=..., id=..., content=...)`. -/
def xhtmlDocL (lang title cid content : List Char) : List Char :=
  tplA ++ lang ++ tplB ++ title ++ tplC ++ cid ++ tplD ++ title ++ tplE ++ content ++ tplF

/-- The last-resort fallback content; `err` is the message of the external
parser's second syntax error, interpolated verbatim by the source. -/
def fallbackContentL (err : List Char) : List Char :=
  "<p>Chapter content unavailable due to XML errors: ".data ++ err ++ "</p>".data

/-- The per-chapter body of `generate_chapter_files`: resolve the title,
remove redundant headings, apply the typographic substitution, assemble the
template, and on a failed parse try the repaired content and then the
fallback paragraph.  The returned string is what is written to
`chapter-{i}.xhtml` in every case. -/
def emitChapterL (lang : List Char) (i : Nat) (rawTitle : String) (frag : List Node)
    (err : List Char) : List Char :=
  let title := resolveTitle i rawTitle
  let frag2 := stripHeadsList title frag
  let content1 := typographicL (serializeListL frag2)
  let doc1 := xhtmlDocL lang title.data (chapterIdL i) content1
  if wellFormedL doc1 then doc1
  else
    let content2 := fixXmlIssuesL content1
    let doc2 := xhtmlDocL lang title.data (chapterIdL i) content2
    if wellFormedL doc2 then doc2
    else xhtmlDocL lang title.data (chapterIdL i) (fallbackContentL err)

def emitChapterStr (lang : String) (i : Nat) (rawTitle : String) (frag : List Node)
    (err : String) : String :=
  String.mk (emitChapterL lang.data i rawTitle frag err.data)

/-! ## Scanner run lemmas -/

theorem runX_append (st : XSt) (a b : List Char) :
    runX st (a ++ b) = runX (runX st a) b := by
  simp [runX, List.foldl_append]

/-- Characters that pass through text state unchanged. -/
def plainTextChar (c : Char) : Bool :=
  validXmlChar c && !(c = '<') && !(c = '&')

theorem xstep_txt_plain (stk : List (List Char)) (c : Char) (h : plainTextChar c = true) :
    xstep (.txt stk) c = .txt stk := by
  simp only [plainTextChar, Bool.and_eq_true, Bool.not_eq_true', decide_eq_false_iff_not] at h
  simp [xstep, h.1.2, h.2, h.1.1]

theorem runX_txt_plain (stk : List (List Char)) :
    ∀ l : List Char, (∀ c ∈ l, plainTextChar c = true) → runX (.txt stk) l = .txt stk
  | [], _ => rfl
  | c :: rest, h => by
    have hc := h c (by simp)
    have hrest : ∀ c ∈ rest, plainTextChar c = true := fun d hd => h d (by simp [hd])
    show runX (xstep (.txt stk) c) rest = .txt stk
    rw [xstep_txt_plain stk c hc]
    exact runX_txt_plain stk rest hrest

theorem runX_txt_escText (stk : List (List Char)) :
    ∀ l : List Char, (∀ c ∈ l, validXmlChar c = true) → runX (.txt stk) (escTextL l) = .txt stk
  | [], _ => rfl
  | c :: rest, h => by
    have hc := h c (by simp)
    have hrest : ∀ c ∈ rest, validXmlChar c = true := fun d hd => h d (by simp [hd])
    rw [escTextL, runX_append, show runX (.txt stk) (escTextC c) = .txt stk from ?_]
    · exact runX_txt_escText stk rest hrest
    · by_cases h1 : c = '&'
      · subst h1; rfl
      · by_cases h2 : c = '<'
        · subst h2; rfl
        · by_cases h3 : c = '>'
          · subst h3; rfl
          · rw [show escTextC c = [c] by simp [escTextC, h1, h2, h3]]
            show xstep (.txt stk) c = .txt stk
            simp [xstep, h1, h2, hc]

/-- Characters that pass through attribute state unchanged. -/
def plainAttrChar (c : Char) : Bool :=
  validXmlChar c && !(c = '>') && !(c = '<') && !(c = '&') && !(c = '/')

theorem runX_att_plain (stk : List (List Char)) (n : List Char) :
    ∀ l : List Char, (∀ c ∈ l, plainAttrChar c = true) → runX (.att stk n) l = .att stk n
  | [], _ => rfl
  | c :: rest, h => by
    have hc := h c (by simp)
    simp only [plainAttrChar, Bool.and_eq_true, Bool.not_eq_true', decide_eq_false_iff_not] at hc
    have hrest : ∀ c ∈ rest, plainAttrChar c = true := fun d hd => h d (by simp [hd])
    show runX (xstep (.att stk n) c) rest = .att stk n
    rw [show xstep (.att stk n) c = .att stk n by
      simp [xstep, hc.1.1.1.2, hc.1.1.2, hc.1.2, hc.2, hc.1.1.1.1]]
    exact runX_att_plain stk n rest hrest

theorem runX_nam_names (stk : List (List Char)) :
    ∀ (l acc : List Char), (∀ c ∈ l, xmlNameChar c = true) →
      runX (.nam stk acc) l = .nam stk (acc ++ l)
  | [], acc, _ => by simp [runX]
  | c :: rest, acc, h => by
    have hc := h c (by simp)
    have hrest : ∀ c ∈ rest, xmlNameChar c = true := fun d hd => h d (by simp [hd])
    show runX (xstep (.nam stk acc) c) rest = .nam stk (acc ++ c :: rest)
    rw [show xstep (.nam stk acc) c = .nam stk (acc ++ [c]) by simp [xstep, hc]]
    rw [runX_nam_names stk rest (acc ++ [c]) hrest]
    simp

theorem runX_cls_names (stk : List (List Char)) :
    ∀ (l acc : List Char), (∀ c ∈ l, xmlNameChar c = true) →
      runX (.cls stk acc) l = .cls stk (acc ++ l)
  | [], acc, _ => by simp [runX]
  | c :: rest, acc, h => by
    have hc := h c (by simp)
    have hrest : ∀ c ∈ rest, xmlNameChar c = true := fun d hd => h d (by simp [hd])
    show runX (xstep (.cls stk acc) c) rest = .cls stk (acc ++ c :: rest)
    rw [show xstep (.cls stk acc) c = .cls stk (acc ++ [c]) by simp [xstep, hc]]
    rw [runX_cls_names stk rest (acc ++ [c]) hrest]
    simp

/-! ## Fragment goodness and serialisation acceptance -/

/-- Attribute-name/value characters for which serialisation and the
typographic substitution are transparent: valid, not markup-special, no
slash (which the scanner treats as a potential self-close), no quote (so
attribute escaping is the identity) and no dash (so the `--` substitution
cannot fire). -/
def goodAttrChar (c : Char) : Bool :=
  validXmlChar c && !(c = '<') && !(c = '&') && !(c = '>') && !(c = '"')
    && !(c = '/') && !(c = '-')

/-- Text characters: valid XML characters other than dash (dash is
excluded only so that the `--` substitution cannot fire inside the
fragment). -/
def goodTextChar (c : Char) : Bool :=
  validXmlChar c && !(c = '-')

mutual
/-- A fragment node whose serialisation is well-formed markup that the
typographic substitution leaves unchanged: alphanumeric tag names,
restricted attribute characters, arbitrary valid text without dashes. -/
def goodN : Node → Bool
  | .elem nm attrs cs =>
    !nm.data.isEmpty && nm.data.all xmlNameChar
      && attrs.all (fun a => a.1.data.all goodAttrChar && a.2.data.all goodAttrChar)
      && goodL cs
  | .text s => s.data.all goodTextChar

def goodL : List Node → Bool
  | [] => true
  | n :: rest => goodN n && goodL rest
end

theorem goodAttrChar_plain {c : Char} (h : goodAttrChar c = true) : plainAttrChar c = true := by
  simp only [goodAttrChar, Bool.and_eq_true] at h
  simp [plainAttrChar, h.1.1.1.1.1.1, h.1.1.1.1.1.2, h.1.1.1.1.2, h.1.1.1.2, h.1.2]

theorem escAttrL_id : ∀ l : List Char, (∀ c ∈ l, goodAttrChar c = true) → escAttrL l = l
  | [], _ => rfl
  | c :: rest, h => by
    have hc := h c (by simp)
    simp only [goodAttrChar, Bool.and_eq_true, Bool.not_eq_true', decide_eq_false_iff_not] at hc
    rw [escAttrL, show escAttrC c = [c] by
      simp [escAttrC, hc.1.1.1.1.1.2, hc.1.1.1.1.2, hc.1.1.1.2, hc.1.1.2]]
    rw [escAttrL_id rest (fun d hd => h d (by simp [hd]))]
    rfl

/-- Goodness of one attribute pair. -/
def goodAttrPair (a : String × String) : Bool :=
  a.1.data.all goodAttrChar && a.2.data.all goodAttrChar

theorem runX_attr_from_att (stk : List (List Char)) (n : List Char) (a : String × String)
    (h : goodAttrPair a = true) : runX (.att stk n) (serializeAttr a) = .att stk n := by
  simp only [goodAttrPair, Bool.and_eq_true, List.all_eq_true] at h
  rw [serializeAttr, escAttrL_id a.2.data h.2]
  apply runX_att_plain
  intro c hc
  simp only [List.mem_append, List.mem_cons, List.mem_singleton, List.not_mem_nil,
    or_false] at hc
  have hcn : c = ' ' ∨ c = '=' ∨ c = '"' ∨ c ∈ a.1.data ∨ c ∈ a.2.data := by tauto
  rcases hcn with rfl | rfl | rfl | hm | hm
  · rfl
  · rfl
  · rfl
  · exact goodAttrChar_plain (h.1 c hm)
  · exact goodAttrChar_plain (h.2 c hm)

theorem runX_attr_from_nam (stk : List (List Char)) (n : List Char) (a : String × String)
    (h : goodAttrPair a = true) : runX (.nam stk n) (serializeAttr a) = .att stk n := by
  simp only [goodAttrPair, Bool.and_eq_true, List.all_eq_true] at h
  rw [serializeAttr, escAttrL_id a.2.data h.2, List.cons_append, List.cons_append]
  have hstep : ∀ l, runX (.nam stk n) (' ' :: l) = runX (.att stk n) l := fun l => rfl
  rw [hstep]
  apply runX_att_plain
  intro c hc
  simp only [List.mem_append, List.mem_cons, List.mem_singleton, List.not_mem_nil,
    or_false] at hc
  have hcn : c = ' ' ∨ c = '=' ∨ c = '"' ∨ c ∈ a.1.data ∨ c ∈ a.2.data := by tauto
  rcases hcn with rfl | rfl | rfl | hm | hm
  · rfl
  · rfl
  · rfl
  · exact goodAttrChar_plain (h.1 c hm)
  · exact goodAttrChar_plain (h.2 c hm)

theorem runX_att_attrs (stk : List (List Char)) (n : List Char) :
    ∀ attrs : List (String × String), (∀ a ∈ attrs, goodAttrPair a = true) →
      runX (.att stk n) ((attrs.map serializeAttr).flatten) = .att stk n
  | [], _ => rfl
  | a :: rest, h => by
    rw [List.map_cons, List.flatten_cons, runX_append,
      runX_attr_from_att stk n a (h a (by simp))]
    exact runX_att_attrs stk n rest (fun b hb => h b (by simp [hb]))

theorem xstep_opn_name (stk : List (List Char)) (c : Char) (h : xmlNameChar c = true) :
    xstep (.opn stk) c = .nam stk [c] := by
  have h1 : c ≠ '/' := by rintro rfl; exact absurd h (by decide)
  have h2 : c ≠ '?' := by rintro rfl; exact absurd h (by decide)
  simp [xstep, h, h1, h2]

theorem runX_txt_openTag (stk : List (List Char)) (nm : List Char)
    (attrs : List (String × String)) (hne : nm ≠ [])
    (hnm : ∀ c ∈ nm, xmlNameChar c = true)
    (hattrs : ∀ a ∈ attrs, goodAttrPair a = true) :
    runX (.txt stk) ((('<' :: nm) ++ (attrs.map serializeAttr).flatten) ++ ['>'])
      = .txt (nm :: stk) := by
  rw [runX_append, runX_append]
  have hopen : runX (.txt stk) ('<' :: nm) = .nam stk nm := by
    cases nm with
    | nil => exact absurd rfl hne
    | cons c rest =>
      show runX (xstep (.txt stk) '<') (c :: rest) = _
      rw [show xstep (.txt stk) '<' = .opn stk from rfl]
      show runX (xstep (.opn stk) c) rest = _
      rw [xstep_opn_name stk c (hnm c (by simp))]
      rw [runX_nam_names stk rest [c] (fun d hd => hnm d (by simp [hd]))]
      rfl
  rw [hopen]
  have hF : runX (.nam stk nm) ((attrs.map serializeAttr).flatten) = .nam stk nm
      ∨ runX (.nam stk nm) ((attrs.map serializeAttr).flatten) = .att stk nm := by
    cases attrs with
    | nil => exact Or.inl rfl
    | cons a rest =>
      refine Or.inr ?_
      rw [List.map_cons, List.flatten_cons, runX_append,
        runX_attr_from_nam stk nm a (hattrs a (by simp))]
      exact runX_att_attrs stk nm rest (fun b hb => hattrs b (by simp [hb]))
  rcases hF with hF | hF <;> rw [hF] <;> rfl

theorem runX_txt_closePart (stk : List (List Char)) (nm : List Char)
    (hnm : ∀ c ∈ nm, xmlNameChar c = true) :
    runX (.txt (nm :: stk)) ('<' :: '/' :: nm) = .cls (nm :: stk) nm := by
  show runX (xstep (xstep (.txt (nm :: stk)) '<') '/') nm = _
  rw [show xstep (xstep (.txt (nm :: stk)) '<') '/' = .cls (nm :: stk) [] from rfl]
  rw [runX_cls_names (nm :: stk) nm [] hnm]
  rfl

mutual
theorem goodN_run : ∀ (stk : List (List Char)) (n : Node), goodN n = true →
    runX (.txt stk) (serializeL n) = .txt stk
  | stk, .elem nm attrs cs, h => by
    simp only [goodN, Bool.and_eq_true, List.all_eq_true, Bool.not_eq_true'] at h
    obtain ⟨⟨⟨hne, hnm⟩, hattrs⟩, hcs⟩ := h
    have hne' : nm.data ≠ [] := by
      intro he
      rw [he] at hne
      exact absurd hne (by decide)
    have hattrs' : ∀ a ∈ attrs, goodAttrPair a = true := by
      intro a ha
      have := hattrs a ha
      simpa [goodAttrPair] using this
    rw [serializeL, runX_append, runX_append, runX_append]
    rw [runX_txt_openTag stk nm.data attrs hne' hnm hattrs']
    rw [goodL_run (nm.data :: stk) cs hcs]
    rw [runX_txt_closePart stk nm.data hnm]
    show xstep (.cls (nm.data :: stk) nm.data) '>' = .txt stk
    have hgt : xmlNameChar '>' = false := by decide
    simp [xstep, hgt]
  | stk, .text s, h => by
    simp only [goodN, List.all_eq_true] at h
    apply runX_txt_escText
    intro c hc
    have := h c hc
    simp only [goodTextChar, Bool.and_eq_true] at this
    exact this.1

theorem goodL_run : ∀ (stk : List (List Char)) (ns : List Node), goodL ns = true →
    runX (.txt stk) (serializeListL ns) = .txt stk
  | _, [], _ => rfl
  | stk, n :: rest, h => by
    simp only [goodL, Bool.and_eq_true] at h
    rw [serializeListL, runX_append, goodN_run stk n h.1, goodL_run stk rest h.2]
end

/-! ## Behaviour of the typographic substitution on good fragments -/

theorem replaceGo_self (pat : List Char) : ∀ (fuel : Nat) (l : List Char),
    replaceGo pat pat fuel l = l
  | 0, l => by cases l <;> rfl
  | _ + 1, [] => rfl
  | fuel + 1, c :: rest => by
    rw [replaceGo]
    split
    · next hp =>
      obtain ⟨t, ht⟩ := (List.isPrefixOf_iff_prefix.mp hp.2)
      conv_rhs => rw [← ht]
      congr 1
      rw [← ht, List.drop_left]
      exact replaceGo_self pat fuel t
    · rw [replaceGo_self pat fuel rest]

theorem replaceL_self (pat l : List Char) : replaceL pat pat l = l :=
  replaceGo_self pat l.length l

theorem replaceGo_absent (hd : Char) (tl rep : List Char) :
    ∀ (fuel : Nat) (l : List Char), hd ∉ l → replaceGo (hd :: tl) rep fuel l = l
  | 0, l, _ => by cases l <;> rfl
  | _ + 1, [], _ => rfl
  | fuel + 1, c :: rest, h => by
    rw [replaceGo]
    rw [if_neg]
    · rw [replaceGo_absent hd tl rep fuel rest (fun hm => h (by simp [hm]))]
    · rintro ⟨-, hp⟩
      have := (List.cons_prefix_cons.mp (List.isPrefixOf_iff_prefix.mp hp)).1
      exact h (by simp [this])

theorem replaceL_absent (hd : Char) (tl rep l : List Char) (h : hd ∉ l) :
    replaceL (hd :: tl) rep l = l :=
  replaceGo_absent hd tl rep l.length l h

theorem dash_not_mem_escTextL : ∀ l : List Char, (∀ c ∈ l, goodTextChar c = true) →
    '-' ∉ escTextL l
  | [], _ => by simp [escTextL]
  | c :: rest, h => by
    rw [escTextL]
    intro hm
    rcases List.mem_append.mp hm with hm | hm
    · have hc := h c (by simp)
      simp only [goodTextChar, Bool.and_eq_true, Bool.not_eq_true',
        decide_eq_false_iff_not] at hc
      by_cases h1 : c = '&'
      · subst h1; revert hm; decide
      by_cases h2 : c = '<'
      · subst h2; revert hm; decide
      by_cases h3 : c = '>'
      · subst h3; revert hm; decide
      · rw [show escTextC c = [c] by simp [escTextC, h1, h2, h3]] at hm
        simp at hm
        exact hc.2 hm.symm
    · exact dash_not_mem_escTextL rest (fun d hd => h d (by simp [hd])) hm

theorem dash_not_mem_serializeAttr (a : String × String) (h : goodAttrPair a = true) :
    '-' ∉ serializeAttr a := by
  simp only [goodAttrPair, Bool.and_eq_true, List.all_eq_true] at h
  rw [serializeAttr, escAttrL_id a.2.data h.2]
  intro hm
  simp only [List.mem_append, List.mem_cons, List.mem_singleton] at hm
  have hkey : '-' ∉ a.1.data := by
    intro hk
    have := h.1 '-' hk
    exact absurd this (by decide)
  have hval : '-' ∉ a.2.data := by
    intro hk
    have := h.2 '-' hk
    exact absurd this (by decide)
  tauto

mutual
theorem dash_not_mem_serializeL : ∀ n : Node, goodN n = true → '-' ∉ serializeL n
  | .elem nm attrs cs, h => by
    simp only [goodN, Bool.and_eq_true, List.all_eq_true] at h
    obtain ⟨⟨⟨-, hnm⟩, hattrs⟩, hcs⟩ := h
    rw [serializeL]
    intro hm
    simp only [List.mem_append, List.mem_cons, List.mem_singleton] at hm
    have hname : '-' ∉ nm.data := by
      intro hk
      exact absurd (hnm '-' hk) (by decide)
    have hflat : '-' ∉ (attrs.map serializeAttr).flatten := by
      intro hk
      obtain ⟨l, hl, hml⟩ := List.mem_flatten.mp hk
      obtain ⟨a, ha, rfl⟩ := List.mem_map.mp hl
      have hgp : goodAttrPair a = true := by
        have := hattrs a ha
        simpa [goodAttrPair] using this
      exact dash_not_mem_serializeAttr a hgp hml
    have hcs' : '-' ∉ serializeListL cs := dash_not_mem_serializeListL cs hcs
    tauto
  | .text s, h => by
    simp only [goodN, List.all_eq_true] at h
    exact dash_not_mem_escTextL s.data h

theorem dash_not_mem_serializeListL : ∀ ns : List Node, goodL ns = true →
    '-' ∉ serializeListL ns
  | [], _ => by simp [serializeListL]
  | n :: rest, h => by
    simp only [goodL, Bool.and_eq_true] at h
    rw [serializeListL]
    intro hm
    rcases List.mem_append.mp hm with hm | hm
    · exact dash_not_mem_serializeL n h.1 hm
    · exact dash_not_mem_serializeListL rest h.2 hm
end

/-- On a dash-free string the typographic substitution is the identity
(the quote substitutions replace each quote by itself). -/
theorem typographicL_id (l : List Char) (h : '-' ∉ l) : typographicL l = l := by
  rw [typographicL]
  simp only [replaceL_self]
  exact replaceL_absent '-' ['-'] mojibakeDash l h

mutual
theorem goodN_stripHeads (t : String) : ∀ n : Node, goodN n = true →
    goodN (stripHeads t n) = true
  | .elem nm a cs, h => by
    simp only [goodN, Bool.and_eq_true] at h
    obtain ⟨⟨⟨hne, hnm⟩, hattrs⟩, hcs⟩ := h
    simp only [stripHeads, goodN, Bool.and_eq_true]
    exact ⟨⟨⟨hne, hnm⟩, hattrs⟩, goodL_stripHeadsList t cs hcs⟩
  | .text s, h => h

theorem goodL_stripHeadsList (t : String) : ∀ ns : List Node, goodL ns = true →
    goodL (stripHeadsList t ns) = true
  | [], _ => rfl
  | n :: rest, h => by
    simp only [goodL, Bool.and_eq_true] at h
    by_cases hm : isMatchingHeading t n = true
    · simp only [stripHeadsList, hm, if_true]
      exact goodL_stripHeadsList t rest h.2
    · simp only [Bool.not_eq_true] at hm
      simp only [stripHeadsList, hm, Bool.false_eq_true, if_false, goodL, Bool.and_eq_true]
      exact ⟨goodN_stripHeads t n h.1, goodL_stripHeadsList t rest h.2⟩
end

theorem digitChar_plain (d : Nat) (h : d < 10) : plainAttrChar (digitChar d) = true := by
  interval_cases d <;> decide

theorem natDecGo_plain : ∀ (fuel n : Nat) (acc : List Char),
    (∀ c ∈ acc, plainAttrChar c = true) → ∀ c ∈ natDecGo fuel n acc, plainAttrChar c = true
  | 0, _, _, hacc => hacc
  | fuel + 1, n, acc, hacc => by
    rw [natDecGo]
    split
    · exact hacc
    · apply natDecGo_plain fuel (n / 10) (digitChar (n % 10) :: acc)
      intro c hc
      rcases List.mem_cons.mp hc with rfl | hc
      · exact digitChar_plain (n % 10) (Nat.mod_lt n (by omega))
      · exact hacc c hc

theorem natDec_plain (n : Nat) : ∀ c ∈ natDec n, plainAttrChar c = true := by
  rw [natDec]
  split
  · intro c hc
    simp only [List.mem_singleton] at hc
    subst hc
    decide
  · exact natDecGo_plain n n [] (by intro c hc; simp at hc)

theorem chapterIdL_plain (i : Nat) : ∀ c ∈ chapterIdL i, plainAttrChar c = true := by
  intro c hc
  rcases List.mem_append.mp hc with hc | hc
  · have hall : ∀ c ∈ "chapter-".data, plainAttrChar c = true := by decide
    exact hall c hc
  · exact natDec_plain i c hc

/-! ## Well-formedness of assembled chapter documents -/

theorem xhtmlDoc_wellFormed (lang title cid content : List Char)
    (hlang : ∀ c ∈ lang, plainAttrChar c = true)
    (htitle : ∀ c ∈ title, plainTextChar c = true)
    (hcid : ∀ c ∈ cid, plainAttrChar c = true)
    (hcontent : runX (.txt ["section".data, "body".data, "html".data]) content
      = .txt ["section".data, "body".data, "html".data]) :
    wellFormedL (xhtmlDocL lang title cid content) = true := by
  have hA : runX (.txt []) tplA = .att [] "html".data := by decide
  have hB : runX (.att [] "html".data) tplB
      = .txt ["title".data, "head".data, "html".data] := by decide
  have hC : runX (.txt ["title".data, "head".data, "html".data]) tplC
      = .att ["body".data, "html".data] "section".data := by decide
  have hD : runX (.att ["body".data, "html".data] "section".data) tplD
      = .txt ["h2".data, "section".data, "body".data, "html".data] := by decide
  have hE : runX (.txt ["h2".data, "section".data, "body".data, "html".data]) tplE
      = .txt ["section".data, "body".data, "html".data] := by decide
  have hF : runX (.txt ["section".data, "body".data, "html".data]) tplF
      = .txt [] := by decide
  have hrun : runX (.txt []) (xhtmlDocL lang title cid content) = .txt [] := by
    rw [xhtmlDocL, runX_append, runX_append, runX_append, runX_append, runX_append,
      runX_append, runX_append, runX_append, runX_append, runX_append]
    rw [hA, runX_att_plain [] "html".data lang hlang, hB,
      runX_txt_plain ["title".data, "head".data, "html".data] title htitle, hC,
      runX_att_plain ["body".data, "html".data] "section".data cid hcid, hD,
      runX_txt_plain ["h2".data, "section".data, "body".data, "html".data] title htitle,
      hE, hcontent, hF]
  simp [wellFormedL, hrun]

/-- C4 counterexample: the claim says the document text finally written
always parses as well-formed XML (first assembly, repaired assembly, or the
fallback).  The resolved title is interpolated into the template without
escaping, so for the chapter title "A & B" all three assemblies contain a
raw ampersand: the emitter falls through to the fallback paragraph and the
written document still does not parse. -/
theorem c4_counterexample :
    emitChapterL "en-US".data 1 "A & B" [] "".data
      = xhtmlDocL "en-US".data "A & B".data (chapterIdL 1) (fallbackContentL "".data)
    ∧ wellFormedL (emitChapterL "en-US".data 1 "A & B" [] "".data) = false := by
  refine ⟨by decide, by decide⟩

/-- C4 (amended): no chapter aborts the run — the emitter always returns
one of the three assemblies, and the returned text is written unconditionally.
When the resolved title is free of XML-special characters, the language tag
and fragment are well-behaved (`goodL`), the first assembly already parses:
the emitted document is the plain template assembly and it is well-formed.
A title containing a raw `&` or `<` defeats all three tiers (see the
counterexample), because neither the repair nor the fallback ever rewrites
the title. -/
theorem c4_wellformed_for_safe_chapters (lang : String) (i : Nat) (rawTitle : String)
    (frag : List Node) (err : String)
    (hlang : ∀ c ∈ lang.data, plainAttrChar c = true)
    (htitle : ∀ c ∈ (resolveTitle i rawTitle).data, plainTextChar c = true)
    (hfrag : goodL frag = true) :
    emitChapterL lang.data i rawTitle frag err.data
      = xhtmlDocL lang.data (resolveTitle i rawTitle).data (chapterIdL i)
          (typographicL (serializeListL (stripHeadsList (resolveTitle i rawTitle) frag)))
    ∧ wellFormedL (emitChapterL lang.data i rawTitle frag err.data) = true := by
  have hgood := goodL_stripHeadsList (resolveTitle i rawTitle) frag hfrag
  have hdash := dash_not_mem_serializeListL _ hgood
  have htyp := typographicL_id (serializeListL (stripHeadsList (resolveTitle i rawTitle) frag)) hdash
  have hcontent : runX (.txt ["section".data, "body".data, "html".data])
      (typographicL (serializeListL (stripHeadsList (resolveTitle i rawTitle) frag)))
      = .txt ["section".data, "body".data, "html".data] := by
    rw [htyp]
    exact goodL_run ["section".data, "body".data, "html".data] _ hgood
  have hwf := xhtmlDoc_wellFormed lang.data (resolveTitle i rawTitle).data (chapterIdL i)
    (typographicL (serializeListL (stripHeadsList (resolveTitle i rawTitle) frag)))
    hlang htitle (chapterIdL_plain i) hcontent
  have hemit : emitChapterL lang.data i rawTitle frag err.data
      = xhtmlDocL lang.data (resolveTitle i rawTitle).data (chapterIdL i)
          (typographicL (serializeListL (stripHeadsList (resolveTitle i rawTitle) frag))) := by
    rw [emitChapterL]
    simp only [hwf, if_true]
  exact ⟨hemit, by rw [hemit]; exact hwf⟩

/-- Closed instance of `c4_wellformed_for_safe_chapters`. -/
theorem c4_wellformed_witness :
    wellFormedL (emitChapterL "en-US".data 1 "My Chapter"
      [.elem "p" [] [.text "Hello there"]] "".data) = true :=
  (c4_wellformed_for_safe_chapters "en-US" 1 "My Chapter"
    [.elem "p" [] [.text "Hello there"]] "" (by decide) (by decide) (by decide)).2

/-! ## Decimal rendering: correctness and injectivity -/

def valOfDigits (l : List Char) : Nat :=
  l.foldl (fun a c => 10 * a + (c.toNat - 48)) 0

theorem foldl_val_from (a : Nat) : ∀ l : List Char,
    l.foldl (fun a c => 10 * a + (c.toNat - 48)) a
      = a * 10 ^ l.length + valOfDigits l := by
  intro l
  induction l generalizing a with
  | nil => simp [valOfDigits]
  | cons c t ih =>
    rw [List.foldl_cons]
    rw [ih (10 * a + (c.toNat - 48))]
    rw [show valOfDigits (c :: t) = (c :: t).foldl (fun a c => 10 * a + (c.toNat - 48)) 0 from rfl]
    rw [List.foldl_cons, ih (10 * 0 + (c.toNat - 48))]
    simp only [List.length_cons]
    ring

theorem valOfDigits_cons (c : Char) (l : List Char) :
    valOfDigits (c :: l) = (c.toNat - 48) * 10 ^ l.length + valOfDigits l := by
  rw [show valOfDigits (c :: l) = (c :: l).foldl (fun a c => 10 * a + (c.toNat - 48)) 0 from rfl]
  rw [List.foldl_cons, foldl_val_from]
  ring_nf

theorem digitChar_toNat (d : Nat) (h : d < 10) : (digitChar d).toNat = 48 + d := by
  interval_cases d <;> decide

theorem natDecGo_val : ∀ (fuel n : Nat) (acc : List Char), n ≤ fuel →
    valOfDigits (natDecGo fuel n acc) = n * 10 ^ acc.length + valOfDigits acc
  | 0, n, acc, hle => by
    have : n = 0 := Nat.le_zero.mp hle
    subst this
    simp [natDecGo]
  | fuel + 1, n, acc, hle => by
    rw [natDecGo]
    split
    · next h => subst h; simp
    · next h =>
      have hpos : 0 < n := Nat.pos_of_ne_zero h
      have hdiv : n / 10 ≤ fuel := by
        have : n / 10 < n := Nat.div_lt_self hpos (by omega)
        omega
      rw [natDecGo_val fuel (n / 10) (digitChar (n % 10) :: acc) hdiv]
      rw [valOfDigits_cons]
      rw [digitChar_toNat (n % 10) (Nat.mod_lt n (by omega))]
      simp only [List.length_cons, Nat.add_sub_cancel_left]
      have key : n / 10 * 10 ^ (acc.length + 1) + n % 10 * 10 ^ acc.length
          = n * 10 ^ acc.length := by
        have h1 : n / 10 * 10 ^ (acc.length + 1) + n % 10 * 10 ^ acc.length
            = (n / 10 * 10 + n % 10) * 10 ^ acc.length := by ring
        have h2 : n / 10 * 10 + n % 10 = n := by omega
        rw [h1, h2]
      omega

theorem valOfDigits_natDec (n : Nat) : valOfDigits (natDec n) = n := by
  rw [natDec]
  split
  · next h => subst h; decide
  · rw [natDecGo_val n n [] (le_refl n)]
    simp [valOfDigits]

theorem natDec_injective : Function.Injective natDec := by
  intro m n h
  have := congrArg valOfDigits h
  rwa [valOfDigits_natDec, valOfDigits_natDec] at this

theorem chapterIdStr_injective : Function.Injective chapterIdStr := by
  intro m n h
  have h' : "chapter-".data ++ natDec m = "chapter-".data ++ natDec n := by
    have := congrArg String.data h
    simpa [chapterIdStr, chapterIdL] using this
  exact natDec_injective (List.append_cancel_left h')

/-! ## The Manifest Updater (`update_content_opf`) -/

/-- The package document, restricted to the parts `update_content_opf`
touches: the `dc:language` element text, the `dc:subject` elements, the
manifest item ids and the spine idrefs (all other content is preserved by
the parse-mutate-serialise cycle and is not modelled). -/
structure OpfDoc where
  language : String
  subjects : List String
  manifestIds : List String
  spineIdrefs : List String
deriving DecidableEq, Repr

/-- One iteration of the `for i in range(1, len(self.chapters) + 1)` loop:
append a manifest item and a spine itemref for `chapter-{k+1}` unless an
entry with that id already existed in the document the loop started from
(`existing_ids` / `existing_idrefs` are computed before the loop). -/
def updateOpfStep (d : OpfDoc) (acc : OpfDoc) (k : Nat) : OpfDoc :=
  let iid := chapterIdStr (k + 1)
  let acc1 :=
    if iid ∈ d.manifestIds then acc
    else { acc with manifestIds := acc.manifestIds ++ [iid] }
  if iid ∈ d.spineIdrefs then acc1
  else { acc1 with spineIdrefs := acc1.spineIdrefs ++ [iid] }

/-- `update_content_opf`: set the language, append the subject tags, then
add the per-chapter manifest items and spine references. -/
def updateContentOpf (language : String) (subjects : List String) (nChapters : Nat)
    (d : OpfDoc) : OpfDoc :=
  let d0 := { d with language := language, subjects := d.subjects ++ subjects }
  (List.range nChapters).foldl (updateOpfStep d) d0

/-- The chapter ids chapter-1 .. chapter-n. -/
def chapterIds (n : Nat) : List String :=
  (List.range n).map (fun k => chapterIdStr (k + 1))

theorem updateOpf_fold_char (d : OpfDoc) : ∀ (n : Nat) (acc : OpfDoc),
    ((List.range n).foldl (updateOpfStep d) acc).manifestIds
      = acc.manifestIds ++ (chapterIds n).filter (fun x => decide (x ∉ d.manifestIds))
    ∧ ((List.range n).foldl (updateOpfStep d) acc).spineIdrefs
      = acc.spineIdrefs ++ (chapterIds n).filter (fun x => decide (x ∉ d.spineIdrefs)) := by
  intro n
  induction n with
  | zero => intro acc; simp [chapterIds]
  | succ n ih =>
    intro acc
    rw [List.range_succ, List.foldl_append, List.foldl_cons, List.foldl_nil]
    obtain ⟨ihm, ihs⟩ := ih acc
    have hstep_m : (updateOpfStep d ((List.range n).foldl (updateOpfStep d) acc) n).manifestIds
        = ((List.range n).foldl (updateOpfStep d) acc).manifestIds
          ++ (if chapterIdStr (n + 1) ∈ d.manifestIds then [] else [chapterIdStr (n + 1)]) := by
      rw [updateOpfStep]
      by_cases h1 : chapterIdStr (n + 1) ∈ d.manifestIds
        <;> by_cases h2 : chapterIdStr (n + 1) ∈ d.spineIdrefs
        <;> simp [h1, h2]
    have hstep_s : (updateOpfStep d ((List.range n).foldl (updateOpfStep d) acc) n).spineIdrefs
        = ((List.range n).foldl (updateOpfStep d) acc).spineIdrefs
          ++ (if chapterIdStr (n + 1) ∈ d.spineIdrefs then [] else [chapterIdStr (n + 1)]) := by
      rw [updateOpfStep]
      by_cases h1 : chapterIdStr (n + 1) ∈ d.manifestIds
        <;> by_cases h2 : chapterIdStr (n + 1) ∈ d.spineIdrefs
        <;> simp [h1, h2]
    have hids : chapterIds (n + 1) = chapterIds n ++ [chapterIdStr (n + 1)] := by
      simp [chapterIds, List.range_succ]
    constructor
    · rw [hstep_m, ihm, hids, List.filter_append, List.append_assoc]
      congr 1
      congr 1
      by_cases h1 : chapterIdStr (n + 1) ∈ d.manifestIds <;> simp [h1]
    · rw [hstep_s, ihs, hids, List.filter_append, List.append_assoc]
      congr 1
      congr 1
      by_cases h1 : chapterIdStr (n + 1) ∈ d.spineIdrefs <;> simp [h1]

theorem chapterIds_count (N i : Nat) (h1 : 1 ≤ i) (h2 : i ≤ N) :
    (chapterIds N).count (chapterIdStr i) = 1 := by
  rw [chapterIds]
  have hi : chapterIdStr i = chapterIdStr ((i - 1) + 1) := by
    congr 1
    omega
  rw [hi]
  have hinj : Function.Injective (fun k => chapterIdStr (k + 1)) := by
    intro a b hab
    have := chapterIdStr_injective hab
    omega
  rw [List.count_map_of_injective (List.range N) (fun k => chapterIdStr (k + 1)) hinj (i - 1)]
  exact List.count_eq_one_of_mem (List.nodup_range N) (List.mem_range.mpr (by omega))

/-- C8: for every chapter count N and every initial package document in
which each chapter id occurs at most once (XML ids are unique in a valid
document), the updated document has exactly one manifest item and one spine
reference per id chapter-1..chapter-N, and a second run adds no duplicate
manifest items or spine references. -/
theorem c8_manifest_spine_idempotent (language : String) (subjects : List String)
    (N : Nat) (d : OpfDoc)
    (hm : ∀ i, 1 ≤ i → i ≤ N → d.manifestIds.count (chapterIdStr i) ≤ 1)
    (hs : ∀ i, 1 ≤ i → i ≤ N → d.spineIdrefs.count (chapterIdStr i) ≤ 1) :
    (∀ i, 1 ≤ i → i ≤ N →
      (updateContentOpf language subjects N d).manifestIds.count (chapterIdStr i) = 1
      ∧ (updateContentOpf language subjects N d).spineIdrefs.count (chapterIdStr i) = 1)
    ∧ (updateContentOpf language subjects N
          (updateContentOpf language subjects N d)).manifestIds
        = (updateContentOpf language subjects N d).manifestIds
    ∧ (updateContentOpf language subjects N
          (updateContentOpf language subjects N d)).spineIdrefs
        = (updateContentOpf language subjects N d).spineIdrefs := by
  have hchar := updateOpf_fold_char d N
    { d with language := language, subjects := d.subjects ++ subjects }
  have hone : ∀ (ids : List String), (∀ i, 1 ≤ i → i ≤ N → ids.count (chapterIdStr i) ≤ 1) →
      ∀ i, 1 ≤ i → i ≤ N →
        (ids ++ (chapterIds N).filter (fun x => decide (x ∉ ids))).count (chapterIdStr i) = 1 := by
    intro ids hle i h1 h2
    rw [List.count_append]
    by_cases hmem : chapterIdStr i ∈ ids
    · have hcpos : 1 ≤ ids.count (chapterIdStr i) := List.count_pos_iff.mpr hmem
      have : ((chapterIds N).filter (fun x => decide (x ∉ ids))).count (chapterIdStr i) = 0 := by
        rw [List.count_eq_zero]
        intro hin
        have := (List.mem_filter.mp hin).2
        simp only [decide_eq_true_eq] at this
        exact this hmem
      rw [this]
      have := hle i h1 h2
      omega
    · have hz : ids.count (chapterIdStr i) = 0 := List.count_eq_zero.mpr hmem
      rw [hz]
      have hfil : ((chapterIds N).filter (fun x => decide (x ∉ ids))).count (chapterIdStr i)
          = (chapterIds N).count (chapterIdStr i) := by
        apply List.count_filter
        simp [hmem]
      rw [hfil, chapterIds_count N i h1 h2]
  have hm1 : (updateContentOpf language subjects N d).manifestIds
      = d.manifestIds ++ (chapterIds N).filter (fun x => decide (x ∉ d.manifestIds)) := by
    rw [updateContentOpf]
    exact hchar.1
  have hs1 : (updateContentOpf language subjects N d).spineIdrefs
      = d.spineIdrefs ++ (chapterIds N).filter (fun x => decide (x ∉ d.spineIdrefs)) := by
    rw [updateContentOpf]
    exact hchar.2
  refine ⟨?_, ?_, ?_⟩
  · intro i h1 h2
    rw [hm1, hs1]
    exact ⟨hone d.manifestIds hm i h1 h2, hone d.spineIdrefs hs i h1 h2⟩
  · have hchar2 := updateOpf_fold_char (updateContentOpf language subjects N d) N
      { updateContentOpf language subjects N d with
          language := language,
          subjects := (updateContentOpf language subjects N d).subjects ++ subjects }
    rw [show (updateContentOpf language subjects N
        (updateContentOpf language subjects N d)).manifestIds
        = (updateContentOpf language subjects N d).manifestIds
          ++ (chapterIds N).filter
            (fun x => decide (x ∉ (updateContentOpf language subjects N d).manifestIds)) from
      hchar2.1]
    rw [List.filter_eq_nil_iff.mpr ?_, List.append_nil]
    intro x hx
    simp only [decide_eq_true_eq, Decidable.not_not]
    rw [hm1]
    by_cases hmem : x ∈ d.manifestIds
    · exact List.mem_append.mpr (Or.inl hmem)
    · refine List.mem_append.mpr (Or.inr ?_)
      exact List.mem_filter.mpr ⟨hx, by simp [hmem]⟩
  · have hchar2 := updateOpf_fold_char (updateContentOpf language subjects N d) N
      { updateContentOpf language subjects N d with
          language := language,
          subjects := (updateContentOpf language subjects N d).subjects ++ subjects }
    rw [show (updateContentOpf language subjects N
        (updateContentOpf language subjects N d)).spineIdrefs
        = (updateContentOpf language subjects N d).spineIdrefs
          ++ (chapterIds N).filter
            (fun x => decide (x ∉ (updateContentOpf language subjects N d).spineIdrefs)) from
      hchar2.2]
    rw [List.filter_eq_nil_iff.mpr ?_, List.append_nil]
    intro x hx
    simp only [decide_eq_true_eq, Decidable.not_not]
    rw [hs1]
    by_cases hmem : x ∈ d.spineIdrefs
    · exact List.mem_append.mpr (Or.inl hmem)
    · refine List.mem_append.mpr (Or.inr ?_)
      exact List.mem_filter.mpr ⟨hx, by simp [hmem]⟩

/-- Closed instance of `c8_manifest_spine_idempotent` for two chapters
against a freshly scaffolded document. -/
theorem c8_manifest_spine_witness :
    ((updateContentOpf "en-US" [] 2
        ⟨"en", [], ["css", "titlepage"], ["titlepage"]⟩).manifestIds.count (chapterIdStr 1) = 1
      ∧ (updateContentOpf "en-US" [] 2
        ⟨"en", [], ["css", "titlepage"], ["titlepage"]⟩).spineIdrefs.count (chapterIdStr 1) = 1)
    ∧ (updateContentOpf "en-US" [] 2 (updateContentOpf "en-US" [] 2
        ⟨"en", [], ["css", "titlepage"], ["titlepage"]⟩)).manifestIds
      = (updateContentOpf "en-US" [] 2
        ⟨"en", [], ["css", "titlepage"], ["titlepage"]⟩).manifestIds := by
  have h := c8_manifest_spine_idempotent "en-US" [] 2
    ⟨"en", [], ["css", "titlepage"], ["titlepage"]⟩
    (by intro i h1 h2; interval_cases i <;> decide)
    (by intro i h1 h2; interval_cases i <;> decide)
  exact ⟨h.1 1 (by decide) (by decide), h.2.1⟩

/-! ## The markdown loader (`load_markdown`)

The chapter regex is `##\s+(.*?)(?=##|\Z)` with `re.DOTALL`, scanned by
`findall`.  At a match position the engine consumes `##`, greedily takes the
whitespace run, and the lazy group extends to the first following `##`
(lookahead, not consumed) or the end of the input; scanning resumes at the
lookahead position.  `mdScanGo` implements exactly this scan. -/

/-- Greedy `\s+` span. -/
def wsSpan : List Char → List Char × List Char
  | [] => ([], [])
  | c :: rest =>
    if isWsPy c then
      let p := wsSpan rest
      (c :: p.1, p.2)
    else ([], c :: rest)

/-- Split at the first occurrence of `##` (the lookahead position). -/
def splitAtMarker : List Char → List Char × List Char
  | [] => ([], [])
  | c :: rest =>
    if c = '#' ∧ rest.head? = some '#' then ([], c :: rest)
    else
      let p := splitAtMarker rest
      (c :: p.1, p.2)

/-- Whether a level-2 heading marker (`##` followed by whitespace) starts
at the head of the list. -/
def hitMarker : List Char → Bool
  | a :: b :: c :: _ => a = '#' && b = '#' && isWsPy c
  | _ => false

/-- Number of positions at which a level-2 heading marker occurs.  This is
the specification-side count the scanner is compared against. -/
def countMarkers : List Char → Nat
  | [] => 0
  | c :: rest => (if hitMarker (c :: rest) then 1 else 0) + countMarkers rest

/-- The `findall` scan (fuel-based so that it evaluates in the kernel):
on a marker, capture up to the next `##` or the end; otherwise advance one
character. -/
def mdScanGo : Nat → List Char → List (List Char)
  | 0, _ => []
  | _ + 1, [] => []
  | fuel + 1, c0 :: rest0 =>
    if hitMarker (c0 :: rest0) then
      let p := wsSpan rest0.tail
      let q := splitAtMarker p.2
      q.1 :: mdScanGo fuel q.2
    else mdScanGo fuel rest0

/-- All captures of the chapter regex over the input. -/
def mdScan (l : List Char) : List (List Char) := mdScanGo l.length l

theorem wsSpan_snd_len : ∀ l : List Char, (wsSpan l).2.length ≤ l.length
  | [] => le_refl _
  | c :: rest => by
    rw [wsSpan]
    split
    · have := wsSpan_snd_len rest
      simp only [List.length_cons]
      omega
    · simp

theorem splitAtMarker_snd_len : ∀ l : List Char, (splitAtMarker l).2.length ≤ l.length
  | [] => le_refl _
  | c :: rest => by
    rw [splitAtMarker]
    split
    · simp
    · have := splitAtMarker_snd_len rest
      simp only [List.length_cons]
      omega

theorem hitMarker_false_of_not_head (c : Char) (l : List Char)
    (h : ¬(c = '#' ∧ l.head? = some '#')) : hitMarker (c :: l) = false := by
  cases l with
  | nil => rfl
  | cons b l2 =>
    cases l2 with
    | nil => rfl
    | cons d l3 =>
      by_cases hc : c = '#'
      · have hb : b ≠ '#' := fun hb => h ⟨hc, by simp [hb]⟩
        simp [hitMarker, hb]
      · simp [hitMarker, hc]

theorem countMarkers_splitAtMarker : ∀ l : List Char,
    countMarkers (splitAtMarker l).2 = countMarkers l
  | [] => rfl
  | c :: rest => by
    rw [splitAtMarker]
    split
    · rfl
    · next h =>
      rw [countMarkers, hitMarker_false_of_not_head c rest h]
      simp only [Bool.false_eq_true, if_false, Nat.zero_add]
      exact countMarkers_splitAtMarker rest

theorem countMarkers_wsSpan : ∀ l : List Char, countMarkers (wsSpan l).2 = countMarkers l
  | [] => rfl
  | c :: rest => by
    rw [wsSpan]
    split
    · next hws =>
      have hneq : ¬(c = '#' ∧ rest.head? = some '#') := by
        rintro ⟨rfl, -⟩
        exact absurd hws (by decide)
      rw [countMarkers, hitMarker_false_of_not_head c rest hneq]
      simp only [Bool.false_eq_true, if_false, Nat.zero_add]
      exact countMarkers_wsSpan rest
    · rfl

theorem hitMarker_shape (c0 : Char) (rest0 : List Char)
    (h : hitMarker (c0 :: rest0) = true) :
    c0 = '#' ∧ ∃ c rest, rest0 = '#' :: c :: rest ∧ isWsPy c = true := by
  cases rest0 with
  | nil => simp [hitMarker] at h
  | cons b l2 =>
    cases l2 with
    | nil => simp [hitMarker] at h
    | cons d l3 =>
      simp only [hitMarker, Bool.and_eq_true, decide_eq_true_eq] at h
      exact ⟨h.1.1, d, l3, by rw [h.1.2], h.2⟩

theorem mdScanGo_length : ∀ (fuel : Nat) (l : List Char), l.length ≤ fuel →
    (mdScanGo fuel l).length = countMarkers l
  | 0, l, hle => by
    have : l = [] := List.length_eq_zero.mp (Nat.le_zero.mp hle)
    subst this
    rfl
  | _ + 1, [], _ => rfl
  | fuel + 1, c0 :: rest0, hle => by
    rw [mdScanGo]
    split
    · next hhit =>
      obtain ⟨rfl, c, rest, rfl, hws⟩ := hitMarker_shape c0 rest0 hhit
      have hq2 : countMarkers (splitAtMarker (wsSpan (c :: rest)).2).2
          = countMarkers (c :: rest) := by
        rw [countMarkers_splitAtMarker, countMarkers_wsSpan]
      have hlen2 : (splitAtMarker (wsSpan (c :: rest)).2).2.length ≤ fuel := by
        have h1 := splitAtMarker_snd_len (wsSpan (c :: rest)).2
        have h2 := wsSpan_snd_len (c :: rest)
        simp only [List.length_cons] at h1 h2 hle ⊢
        omega
      simp only [List.tail_cons, List.length_cons]
      rw [mdScanGo_length fuel _ hlen2, hq2]
      have hmid : countMarkers ('#' :: c :: rest) = countMarkers (c :: rest) := by
        have hneq : ¬('#' = '#' ∧ (c :: rest).head? = some '#') := by
          rintro ⟨-, hc⟩
          simp only [List.head?_cons, Option.some.injEq] at hc
          subst hc
          exact absurd hws (by decide)
        rw [countMarkers, hitMarker_false_of_not_head '#' (c :: rest) hneq]
        simp
      rw [show countMarkers ('#' :: '#' :: c :: rest)
          = (if hitMarker ('#' :: '#' :: c :: rest) then 1 else 0)
            + countMarkers ('#' :: c :: rest) from rfl]
      rw [hmid, hhit]
      simp only [if_true]
      omega
    · next hhit =>
      simp only [Bool.not_eq_true] at hhit
      have hlen2 : rest0.length ≤ fuel := by
        simp only [List.length_cons] at hle
        omega
      rw [mdScanGo_length fuel rest0 hlen2]
      rw [countMarkers, hhit]
      simp

theorem mdScan_length (l : List Char) : (mdScan l).length = countMarkers l :=
  mdScanGo_length l.length l (le_refl _)

/-- Split at the first newline (Python `split('\n', 1)`): the part before,
and the part after when a newline exists. -/
def splitFirstNl (l : List Char) : List Char × Option (List Char) :=
  let before := l.takeWhile (fun c => decide (c ≠ '\n'))
  match l.dropWhile (fun c => decide (c ≠ '\n')) with
  | [] => (before, none)
  | _ :: after => (before, some after)

/-! ### The HTML fragment parser used by `_markdown_to_html`

`_markdown_to_html` (script.py:111-120) is repository code: it wraps the
chapter text in a `<div>`, reparses it with the third-party HTML parser
(`BeautifulSoup(..., 'html.parser')`) and reserialises the div's children.
The wrapper is translated from the source (`markdownToHtml` below); the
third-party parser is modelled here: text with character references decoded
(the five predefined entity names; the full HTML entity table, numeric
references and void elements are not modelled), tags with `key="value"`
attributes, and the parser's repair behaviour — a `<` that opens no tag is
literal text, an unmatched close tag is dropped, and elements still open at
the end of the input are closed there.  Adjacent text is kept as separate
text nodes; the serialised output, which is all `_markdown_to_html`
returns, is unaffected by that. -/

/-- Tokens of the HTML scanner. -/
inductive HTok where
  | textT (s : List Char)
  | openT (name : String) (attrs : List (String × String)) (selfClose : Bool)
  | closeT (name : String)
deriving DecidableEq, Repr

/-- Decode a character reference name (predefined entities only). -/
def entityChar (name : List Char) : Option Char :=
  if name = "amp".data then some '&'
  else if name = "lt".data then some '<'
  else if name = "gt".data then some '>'
  else if name = "quot".data then some '"'
  else if name = "apos".data then some '\'' else none

def isTagNameChar (c : Char) : Bool := c.isAlphanum

def isAttrKeyEnd (c : Char) : Bool := c = '=' || c = '>' || c = '/' || isWsPy c

/-- Read a tag's attributes up to the closing `>`: the attribute pairs,
whether the tag is self-closing, and the input after the `>`. -/
def readAttrs : Nat → List Char → List (String × String) × Bool × List Char
  | 0, l => ([], false, l)
  | _ + 1, [] => ([], false, [])
  | fuel + 1, c :: rest =>
    if c = '>' then ([], false, rest)
    else if c = '/' ∧ rest.head? = some '>' then ([], true, rest.tail)
    else if isWsPy c then readAttrs fuel rest
    else
      let key := (c :: rest).takeWhile (fun d => !(isAttrKeyEnd d))
      let r1 := (c :: rest).dropWhile (fun d => !(isAttrKeyEnd d))
      match r1 with
      | '=' :: '"' :: r2 =>
        let v := r2.takeWhile (fun d => decide (d ≠ '"'))
        let r3 := (r2.dropWhile (fun d => decide (d ≠ '"'))).tail
        let p := readAttrs fuel r3
        ((String.mk key, String.mk v) :: p.1, p.2.1, p.2.2)
      | '=' :: r2 =>
        let v := r2.takeWhile (fun d => !(d = '>' || isWsPy d))
        let r3 := r2.dropWhile (fun d => !(d = '>' || isWsPy d))
        let p := readAttrs fuel r3
        ((String.mk key, String.mk v) :: p.1, p.2.1, p.2.2)
      | _ =>
        let p := readAttrs fuel r1
        ((String.mk key, "") :: p.1, p.2.1, p.2.2)

/-- Tokenise markup text: tags, decoded character references, and text. -/
def htmlToks : Nat → List Char → List HTok
  | 0, _ => []
  | _ + 1, [] => []
  | fuel + 1, '<' :: rest =>
    match rest with
    | '/' :: r1 =>
      if (r1.head?.map isTagNameChar).getD false then
        let nm := r1.takeWhile isTagNameChar
        let r2 := r1.dropWhile isTagNameChar
        let r3 := (r2.dropWhile (fun d => decide (d ≠ '>'))).tail
        .closeT (String.mk nm) :: htmlToks fuel r3
      else .textT ['<'] :: htmlToks fuel rest
    | _ =>
      if (rest.head?.map Char.isAlpha).getD false then
        let nm := rest.takeWhile isTagNameChar
        let r2 := rest.dropWhile isTagNameChar
        let p := readAttrs (r2.length + 1) r2
        .openT (String.mk nm) p.1 p.2.1 :: htmlToks fuel p.2.2
      else .textT ['<'] :: htmlToks fuel rest
  | fuel + 1, '&' :: rest =>
    let nm := rest.takeWhile Char.isAlpha
    let r2 := rest.dropWhile Char.isAlpha
    match entityChar nm, r2.head? with
    | some c, some ';' => .textT [c] :: htmlToks fuel r2.tail
    | _, _ => .textT ['&'] :: htmlToks fuel rest
  | fuel + 1, c :: rest => .textT [c] :: htmlToks fuel rest

/-- An element still being built: its name, attributes, and the children
collected so far. -/
structure BFrame where
  name : String
  attrs : List (String × String)
  children : List Node
deriving Repr

/-- Attach a finished node to the innermost open element, or to the
top-level result when no element is open. -/
def bPush (stk : List BFrame) (done : List Node) (n : Node) :
    List BFrame × List Node :=
  match stk with
  | [] => ([], done ++ [n])
  | f :: rest => ({ f with children := f.children ++ [n] } :: rest, done)

/-- Close the innermost open element. -/
def bPopOne (stk : List BFrame) (done : List Node) : List BFrame × List Node :=
  match stk with
  | [] => ([], done)
  | f :: rest => bPush rest done (.elem f.name f.attrs f.children)

/-- Close elements until one named `nm` has been closed (implicitly closing
unclosed inner elements, as the HTML parser does). -/
def bPopTo (nm : String) : Nat → List BFrame → List Node → List BFrame × List Node
  | 0, stk, done => (stk, done)
  | fuel + 1, stk, done =>
    match stk with
    | [] => ([], done)
    | f :: _ =>
      let p := bPopOne stk done
      if f.name = nm then p else bPopTo nm fuel p.1 p.2

/-- Process one token. -/
def bStep : List BFrame × List Node → HTok → List BFrame × List Node
  | (stk, done), .textT s => bPush stk done (.text (String.mk s))
  | (stk, done), .openT nm attrs true => bPush stk done (.elem nm attrs [])
  | (stk, done), .openT nm attrs false => (⟨nm, attrs, []⟩ :: stk, done)
  | (stk, done), .closeT nm =>
    if stk.any (fun f => f.name = nm) then bPopTo nm stk.length stk done
    else (stk, done)

/-- Close the elements still open at the end of the input. -/
def bFinish : Nat → List BFrame → List Node → List Node
  | 0, _, done => done
  | fuel + 1, stk, done =>
    match stk with
    | [] => done
    | _ :: _ =>
      let p := bPopOne stk done
      bFinish fuel p.1 p.2

/-- Parse markup text into a node forest. -/
def parseHtmlFragment (l : List Char) : List Node :=
  let toks := htmlToks l.length l
  let st := toks.foldl bStep ([], [])
  bFinish st.1.length st.1 st.2

/-- `soup.div`: the first `div` element in document order. -/
def findFirstDiv (ns : List Node) : Option Node :=
  (dfsNodesList ns).find?
    (fun n => match n with | .elem nm _ _ => nm = "div" | .text _ => false)

/-- `_markdown_to_html` (script.py:111-120): wrap the chapter text in a
`<div>`, reparse it, and reserialise the div's contents
(`''.join(str(tag) for tag in soup.div.contents)`).  The `except` fallback
to `<p>{text}</p>` is unreachable in the model, where parsing is total. -/
def markdownToHtml (s : String) : String :=
  let parsed := parseHtmlFragment ("<div>".data ++ s.data ++ "</div>".data)
  match findFirstDiv parsed with
  | some (.elem _ _ cs) => String.mk (serializeListL cs)
  | _ => String.mk (serializeListL parsed)

/-- Build one chapter from a regex capture: strip it, take the first line
(trimmed) as the title, and the stripped remainder (converted) as content. -/
def mkChapter (cap : List Char) : Chapter :=
  let t := stripL cap
  let p := splitFirstNl t
  { title := String.mk (stripL p.1),
    content :=
      match p.2 with
      | some c => markdownToHtml (String.mk (stripL c))
      | none => markdownToHtml "" }

/-- `load_markdown`: fail with "no chapters found" when the regex finds no
match; otherwise one chapter per capture. -/
def loadMarkdown (s : String) : Option (List Chapter) :=
  let caps := mdScan s.data
  if caps.isEmpty then none
  else some (caps.map mkChapter)

/-- The first component of `splitAtMarker` exposes its head. -/
theorem splitAtMarker_fst_head (l : List Char) (x : Char)
    (h : ((splitAtMarker l).1).head? = some x) : l.head? = some x := by
  cases l with
  | nil => simp [splitAtMarker] at h
  | cons c rest =>
    rw [splitAtMarker] at h
    split at h
    · simp at h
    · simp only [List.head?_cons, Option.some.injEq] at h ⊢
      exact h

/-- A capture never contains `##`: `splitAtMarker` stops at the first
occurrence. -/
theorem splitAtMarker_fst_no_marker : ∀ l : List Char,
    ¬ (['#', '#'] <:+: (splitAtMarker l).1)
  | [] => by
    rw [splitAtMarker]
    simp
  | c :: rest => by
    rw [splitAtMarker]
    split
    · simp
    · next h =>
      intro hinf
      have hinf' : ['#', '#'] <:+: c :: (splitAtMarker rest).1 := hinf
      rcases List.infix_cons_iff.mp hinf' with hpre | hinf2
      · have hc := (List.cons_prefix_cons.mp hpre).1
        have htl := (List.cons_prefix_cons.mp hpre).2
        have hhd : ((splitAtMarker rest).1).head? = some '#' := by
          obtain ⟨t, ht⟩ := htl
          rw [← ht]
          rfl
        exact h ⟨hc.symm, splitAtMarker_fst_head rest '#' hhd⟩
      · exact splitAtMarker_fst_no_marker rest hinf2

/-- Every capture produced by the scan is the first component of some
`splitAtMarker`. -/
theorem mdScanGo_mem_caps : ∀ (fuel : Nat) (l cap : List Char),
    cap ∈ mdScanGo fuel l → ∃ m, cap = (splitAtMarker m).1
  | 0, l, cap, h => by simp [mdScanGo] at h
  | _ + 1, [], cap, h => by simp [mdScanGo] at h
  | fuel + 1, c0 :: rest0, cap, h => by
    rw [mdScanGo] at h
    split at h
    · simp only [List.mem_cons] at h
      rcases h with rfl | h2
      · exact ⟨(wsSpan rest0.tail).2, rfl⟩
      · exact mdScanGo_mem_caps fuel _ cap h2
    · exact mdScanGo_mem_caps fuel rest0 cap h

/-- `str.strip()` keeps a contiguous piece of its input. -/
theorem stripL_within (l : List Char) : stripL l <:+: l := by
  have h1 : l.dropWhile isWsPy <:+ l := List.dropWhile_suffix isWsPy
  have h2 : ((l.dropWhile isWsPy).reverse.dropWhile isWsPy).reverse
      <+: ((l.dropWhile isWsPy).reverse).reverse :=
    List.reverse_prefix.mpr (List.dropWhile_suffix isWsPy)
  rw [List.reverse_reverse] at h2
  exact h2.isInfix.trans h1.isInfix

theorem splitFirstNl_fst (l : List Char) :
    (splitFirstNl l).1 = l.takeWhile (fun c => decide (c ≠ '\n')) := by
  rw [splitFirstNl]
  split <;> rfl

/-- A chapter's title — the trimmed first line of a `##`-free capture —
contains neither a newline nor `##`. -/
theorem mkChapter_title_facts (cap : List Char)
    (hcap : ¬ (['#', '#'] <:+: cap)) :
    '\n' ∉ (mkChapter cap).title.data ∧ ¬ (['#', '#'] <:+: (mkChapter cap).title.data) := by
  have htd : (mkChapter cap).title.data
      = stripL ((stripL cap).takeWhile (fun c => decide (c ≠ '\n'))) := by
    show (String.mk (stripL (splitFirstNl (stripL cap)).1)).data = _
    rw [splitFirstNl_fst]
  constructor
  · rw [htd]
    intro hmem
    have h1 : '\n' ∈ (stripL cap).takeWhile (fun c => decide (c ≠ '\n')) :=
      (stripL_within _).subset hmem
    have := List.mem_takeWhile_imp h1
    simp at this
  · rw [htd]
    intro hinf
    have h2 : ['#', '#'] <:+: (stripL cap).takeWhile (fun c => decide (c ≠ '\n')) :=
      hinf.trans (stripL_within _)
    have h3 : ['#', '#'] <:+: stripL cap :=
      h2.trans (List.takeWhile_prefix _).isInfix
    exact hcap (h3.trans (stripL_within cap))

/-- C9 counterexample: the claim says a chapter's content is everything
after the first newline up to the next level-2 heading marker or the end
of the file.  The lazy capture's lookahead `(?=##|\Z)` stops at any `##`
occurrence, marker or not: for "## A\nx##y" there is no further marker
(`##y` has no whitespace after `##`), so the claim requires content
"x##y", but the code produces content "x" and the trailing "##y" belongs
to no chapter. -/
theorem c9_content_truncated_counterexample :
    loadMarkdown "## A\nx##y" = some [⟨"A", "x"⟩]
    ∧ loadMarkdown "## A\nx##y" ≠ some [⟨"A", "x##y"⟩] := by
  refine ⟨by decide, by decide⟩

/-- C9 (amended): the markdown loader fails (reporting "no chapters
found") exactly when the file contains no level-2 heading marker (`##`
followed by whitespace); otherwise it produces one chapter per marker —
never a single-chapter fallback.  Each capture stops at the next
occurrence of `##`, marker or not (text between a non-marker `##` and the
next marker belongs to no chapter), so no capture contains `##`; each
chapter's title, the trimmed first line of its capture, therefore contains
neither a newline nor `##`. -/
theorem c9_markdown_loader_amended (s : String) :
    (loadMarkdown s = none ↔ countMarkers s.data = 0)
    ∧ (∀ cap ∈ mdScan s.data, ¬ (['#', '#'] <:+: cap))
    ∧ (∀ cs, loadMarkdown s = some cs →
        cs.length = countMarkers s.data
        ∧ ∀ ch ∈ cs, '\n' ∉ ch.title.data ∧ ¬ (['#', '#'] <:+: ch.title.data)) := by
  have hlen := mdScan_length s.data
  have hcaps : ∀ cap ∈ mdScan s.data, ¬ (['#', '#'] <:+: cap) := by
    intro cap hc
    obtain ⟨m, rfl⟩ := mdScanGo_mem_caps s.data.length s.data cap hc
    exact splitAtMarker_fst_no_marker m
  refine ⟨?_, hcaps, ?_⟩
  · by_cases hemp : (mdScan s.data).isEmpty
    · have hnil : mdScan s.data = [] := List.isEmpty_iff.mp hemp
      simp only [loadMarkdown, hemp, if_true, true_iff]
      rw [← hlen, hnil]
      rfl
    · simp only [loadMarkdown, hemp, Bool.false_eq_true, if_false]
      constructor
      · intro h
        exact absurd h (by simp)
      · intro h
        rw [← hlen] at h
        exact absurd (List.isEmpty_iff.mpr (List.length_eq_zero.mp h)) hemp
  · intro cs hcs
    by_cases hemp : (mdScan s.data).isEmpty
    · simp [loadMarkdown, hemp] at hcs
    · simp only [loadMarkdown, hemp, Bool.false_eq_true, if_false,
        Option.some.injEq] at hcs
      constructor
      · rw [← hcs, List.length_map, hlen]
      · intro ch hch
        rw [← hcs] at hch
        obtain ⟨cap, hcap, rfl⟩ := List.mem_map.mp hch
        exact mkChapter_title_facts cap (hcaps cap hcap)

/-- Closed instance of `c9_markdown_loader_amended` on a two-chapter file. -/
theorem c9_markdown_loader_amended_witness :
    ([⟨"A", "x"⟩, ⟨"B", "y"⟩] : List Chapter).length = countMarkers "## A\nx\n## B\ny".data
    ∧ ('\n' ∉ ("A" : String).data ∧ ¬ (['#', '#'] <:+: ("A" : String).data)) := by
  have h := (c9_markdown_loader_amended "## A\nx\n## B\ny").2.2
    [⟨"A", "x"⟩, ⟨"B", "y"⟩] (by decide)
  exact ⟨h.1, h.2 ⟨"A", "x"⟩ (by decide)⟩

/-! ## The conversion pipeline's observable outputs -/

/-- The converter's constructor state (`__init__`): all parameters are
stored on the instance.  `release_year` (defaulted by the code to the
current year when absent) and `work_type` are stored and never read
anywhere else in the program. -/
structure Config where
  htmlFile : Option String
  markdownFile : Option String
  authorName : String
  bookTitle : String
  language : String
  releaseYear : Option Nat
  workType : String
  subjects : List String
deriving Repr

/-- Everything the Emitter and Manifest Updater write: the chapter files
(name and document text), the rewritten table-of-contents entries, and the
rewritten package document. -/
structure Outputs where
  chapterFiles : List (String × String)
  tocEntries : List (String × String)
  opf : OpfDoc
deriving DecidableEq, Repr

def chapterFileName (i : Nat) : String := chapterIdStr i ++ ".xhtml"

/-- The file-producing part of `convert`: `generate_chapter_files` (chapter
documents plus table-of-contents entries, 1-based) followed by
`update_content_opf`.  `chapters` carries each chapter's raw title and
parsed content fragment; `err` is the external parser's error text used by
the fallback; `opf0` is the scaffolded package document. -/
def conversionOutputs (cfg : Config) (chapters : List (String × List Node))
    (err : String) (opf0 : OpfDoc) : Outputs :=
  let indexed := List.enumFrom 1 chapters
  { chapterFiles := indexed.map
      (fun p => (chapterFileName p.1, emitChapterStr cfg.language p.1 p.2.1 p.2.2 err)),
    tocEntries := indexed.map
      (fun p => (chapterFileName p.1, resolveTitle p.1 p.2.1)),
    opf := updateContentOpf cfg.language cfg.subjects chapters.length opf0 }

/-- C10: two runs that differ only in the publication year and the
work-type enumeration produce identical chapter files, navigation entries
and package document: the two parameters are stored but never influence any
observable output. -/
theorem c10_year_and_type_unobservable (cfg : Config) (y : Option Nat) (w : String)
    (chapters : List (String × List Node)) (err : String) (opf0 : OpfDoc) :
    conversionOutputs { cfg with releaseYear := y, workType := w } chapters err opf0
      = conversionOutputs cfg chapters err opf0 := by
  cases cfg
  rfl
